import Mathlib

/-!
Verification of the quickmatch fuzzy autocomplete engine (src/lib.rs).

Strings are modelled as `List Char` (a Rust `str` viewed as its sequence of
Unicode scalar values); byte lengths (`str::len`) are recovered through the
UTF-8 size of each scalar.  Item handles (`*const str` in the source) are
modelled as positions into the engine's item list, so the two hash-map
indexes become derived posting-list functions and hash-set intersections
become list intersections.  Hash iteration order, which the source leaves
unspecified, is resolved deterministically: query words are kept in first
occurrence order and posting lists in increasing handle order.
-/

namespace QuickMatch

/-- Rust `str`s are sequences of `char`s. -/
abbrev Str := List Char

/-- UTF-8 encoded size of one scalar value, as in Rust `char::len_utf8`. -/
def charUtf8Len (c : Char) : Nat :=
  if c.toNat < 128 then 1
  else if c.toNat < 2048 then 2
  else if c.toNat < 65536 then 3
  else 4

/-- Byte length of a string, Rust `str::len`. -/
def byteLen (s : Str) : Nat := (s.map charUtf8Len).sum

/-- Rust `char::is_ascii`. -/
def isAsciiChar (c : Char) : Bool := decide (c.toNat < 128)

/-- Rust `char::to_ascii_lowercase`: shift `A`..`Z` down into `a`..`z`. -/
def asciiLower (c : Char) : Char :=
  if 65 ≤ c.toNat ∧ c.toNat ≤ 90 then Char.ofNat (c.toNat + 32) else c

/-- ASCII uppercasing of one character (`char::to_ascii_uppercase`), used to
state the spec's case-normalization property. -/
def asciiUpper (c : Char) : Char :=
  if 97 ≤ c.toNat ∧ c.toNat ≤ 122 then Char.ofNat (c.toNat - 32) else c

/-- Rust `char::is_whitespace`: membership in the Unicode White_Space set. -/
def rustIsWs (c : Char) : Bool :=
  decide (c.toNat ∈ [9, 10, 11, 12, 13, 32, 133, 160, 5760, 8192, 8193, 8194,
    8195, 8196, 8197, 8198, 8199, 8200, 8201, 8202, 8232, 8233, 8239, 8287,
    12288])

/-- Leading-whitespace removal (`str::trim_start`). -/
def trimStart (s : Str) : Str := s.dropWhile rustIsWs

/-- Trailing-whitespace removal (`str::trim_end`). -/
def trimEnd (s : Str) : Str := (s.reverse.dropWhile rustIsWs).reverse

/-- Rust `str::trim`. -/
def trimStr (s : Str) : Str := trimEnd (trimStart s)

/-- Helper for `splitSep`: first piece and remaining pieces of the split. -/
def splitSepAux (seps : List Char) : Str → Str × List Str
  | [] => ([], [])
  | c :: rest =>
    let r := splitSepAux seps rest
    if seps.contains c then ([], r.1 :: r.2) else (c :: r.1, r.2)

/-- Rust `str::split` on a set of separator characters: the pieces between
separators, empty pieces included. -/
def splitSep (seps : List Char) (s : Str) : List Str :=
  (splitSepAux seps s).1 :: (splitSepAux seps s).2

/-- The non-empty words of a string under a separator set. -/
def tokensOf (seps : List Char) (s : Str) : List Str :=
  (splitSep seps s).filter (fun w => decide (w ≠ []))

/-- Configuration record (`QuickMatchConfig`).  The builders clamp `limit`
to at least 1 and `trigram_budget` to `[0, 20]`; the fields here are the
already-clamped values. -/
structure QuickMatchConfig where
  separators : List Char
  limit : Nat
  trigram_budget : Nat

/-- `QuickMatchConfig::default()`. -/
def defaultConfig : QuickMatchConfig :=
  { separators := ['_', '-', ' '], limit := 100, trigram_budget := 6 }

/-- The engine (`QuickMatch`): the corpus, the configuration captured at
build time and the three frozen corpus statistics.  The two inverted
indexes of the source are recovered as the derived functions `wordPost`
and `trigramPost` below, which describe exactly the final contents of the
hash maps that `new_with` populates. -/
structure Engine where
  items : List Str
  config : QuickMatchConfig
  max_word_count : Nat
  max_word_len : Nat
  max_query_len : Nat

/-- Build-time running maximum for `max_query_len` (before the `+ 6`):
`max_query_len = max_query_len.max(item.len())` once per item. -/
def rawMaxQueryLen (items : List Str) : Nat :=
  items.foldl (fun acc it => max acc (byteLen it)) 0

/-- Build-time running maximum for `max_word_len` (before the offsets):
inside the per-word loop the source does `max_word_len =
max_word_len.max(item.len())` for every non-empty word (note: the item's
length, as written in the source). -/
def rawMaxWordLen (seps : List Char) (items : List Str) : Nat :=
  items.foldl
    (fun acc it =>
      (splitSep seps it).foldl
        (fun a w => if w = [] then a else max a (byteLen it)) acc) 0

/-- `QuickMatch::new_with`.  The stored statistics add the source's fixed
offsets to the raw running maxima; note that `max_word_count` adds 2 to the
raw value of `max_word_len`, i.e. before its own `+ 4`.  The local
`max_words` of the source is computed but never read, so it is omitted. -/
def new_with (items : List Str) (config : QuickMatchConfig) : Engine :=
  { items := items
    config := config
    max_query_len := rawMaxQueryLen items + 6
    max_word_len := rawMaxWordLen config.separators items + 4
    max_word_count := rawMaxWordLen config.separators items + 2 }

/-- The item text behind a handle. -/
def itemOf (e : Engine) (h : Nat) : Str := e.items.getD h []

/-- Posting set of the word index: the handles of the items whose
tokenization (under the build separators) contains `w`.  This is the value
set that `new_with` inserts for key `w`. -/
def wordPost (e : Engine) (w : Str) : List Nat :=
  (List.range e.items.length).filter
    (fun h => decide (w ∈ tokensOf e.config.separators (itemOf e h)))

/-- Whether `w` is a key of the word index (`word_index.get(word)` hits):
`new_with` creates a key exactly when some item contributes it. -/
def knownWord (e : Engine) (w : Str) : Bool := decide (wordPost e w ≠ [])

/-- A trigram (`[char; 3]` in the source). -/
abbrev Trigram := Char × Char × Char

/-- The stride-1 windows of size 3 over a word (`chars.windows(3)`): at
each position with at least two successors, the window starting there. -/
def windows3 : Str → List Trigram
  | [] => []
  | a :: rest =>
    (match rest with
      | b :: c :: _ => [(a, b, c)]
      | _ => []) ++ windows3 rest

/-- All trigrams an item contributes to the trigram index: windows of its
words of length at least 3 (the source tests `word.len() >= 3` in bytes). -/
def itemTrigrams (seps : List Char) (it : Str) : List Trigram :=
  (tokensOf seps it).foldr
    (fun w acc => (if 3 ≤ byteLen w then windows3 w else []) ++ acc) []

/-- Posting set of the trigram index for trigram `t`. -/
def trigramPost (e : Engine) (t : Trigram) : List Nat :=
  (List.range e.items.length).filter
    (fun h => decide (t ∈ itemTrigrams e.config.separators (itemOf e h)))

/-- Whether `t` is a key of the trigram index (`trigram_index.get` hits). -/
def trigramHit (e : Engine) (t : Trigram) : Bool := decide (trigramPost e t ≠ [])

/-- Query normalization (`matches_with` lines 92-97): trim, drop non-ASCII
characters, fold to ASCII lowercase. -/
def normQuery (q : Str) : Str :=
  ((trimStr q).filter isAsciiChar).map asciiLower

/-- Set-collection of the query words from an already normalized query:
split on the query configuration's separators, drop empty words and words
longer than `max_word_len`, fold duplicates (the `FxHashSet` of the source,
resolved to first-occurrence order). -/
def wordsOfNorm (e : Engine) (cfg : QuickMatchConfig) (nq : Str) : List Str :=
  ((splitSep cfg.separators nq).filter
    (fun w => decide (w ≠ []) && decide (byteLen w ≤ e.max_word_len))).foldr
    (fun w acc => w :: acc.filter (fun v => decide (v ≠ w))) []

/-- The query's word set. -/
def queryWords (e : Engine) (cfg : QuickMatchConfig) (q : Str) : List Str :=
  wordsOfNorm e cfg (normQuery q)

/-- One step of the classification loop (`matches_with` lines 113-119): a
known word contributes its posting set; an unknown word of length at least
3 is accepted for trigram expansion while fewer than `trigram_budget`
unknown words have been accepted. -/
def classifyStep (e : Engine) (B : Nat) (acc : List (List Nat) × List Str)
    (w : Str) : List (List Nat) × List Str :=
  if knownWord e w then (acc.1 ++ [wordPost e w], acc.2)
  else if 3 ≤ byteLen w ∧ acc.2.length < B then (acc.1, acc.2 ++ [w])
  else acc

/-- Classification of all query words into known posting sets and accepted
unknown words. -/
def classify (e : Engine) (cfg : QuickMatchConfig) (q : Str) :
    List (List Nat) × List Str :=
  (queryWords e cfg q).foldl (classifyStep e cfg.trigram_budget) ([], [])

/-- The known words' posting sets, in word order. -/
def knownSets (e : Engine) (cfg : QuickMatchConfig) (q : Str) :
    List (List Nat) :=
  (classify e cfg q).1

/-- The accepted unknown words, in word order. -/
def unknowns (e : Engine) (cfg : QuickMatchConfig) (q : Str) : List Str :=
  (classify e cfg q).2

/-- The candidate pool (`matches_with` lines 121-134): the intersection of
the known words' posting sets, or `none` when there are no known words.
The source intersects smallest-first for speed; the result is the plain
set intersection, kept here in the order of the first posting set. -/
def poolOf (e : Engine) (cfg : QuickMatchConfig) (q : Str) :
    Option (List Nat) :=
  match knownSets e cfg q with
  | [] => none
  | s :: rest => some (s.filter (fun h => rest.all (fun t => decide (h ∈ t))))

/-- Scratch state of the trigram scheduler: the visited-trigram set, the
budget/hit counter `trigram_count`, the score map (total with default 0;
an absent key is score 0, which the threshold `min_score ≥ 1` excludes
anyway), and an instrumentation trace of the trigram-index lookups
performed, as `(round, trigram, hit)`. -/
structure SchedState where
  visited : List Trigram
  trigram_count : Nat
  score : Nat → Nat
  lookups : List (Nat × Trigram × Bool)

/-- Score seeding (`matches_with` lines 158-164): every pooled item starts
at score 1; with no pool the map starts empty. -/
def seedScore (pool? : Option (List Nat)) : Nat → Nat :=
  fun h =>
    match pool? with
    | some p => if decide (h ∈ p) then 1 else 0
    | none => 0

/-- Score update on a trigram hit (`matches_with` lines 218-231).  Pool
mode increments only items already keyed (the pooled items); open mode
inserts/increments items whose byte length passes the `min_len` filter. -/
def bumpScores (e : Engine) (pool? : Option (List Nat)) (min_len : Nat)
    (t : Trigram) (sc : Nat → Nat) : Nat → Nat :=
  fun h =>
    if decide (h ∈ trigramPost e t) then
      match pool? with
      | some p => if decide (h ∈ p) then sc h + 1 else sc h
      | none => if min_len ≤ byteLen (itemOf e h) then sc h + 1 else sc h
    else sc h

/-- The deterministic position schedule (`matches_with` lines 180-203) for
a word with largest window start `max_pos`: head, tail, middle, then
alternation around the middle; `none` when the round yields no fresh
position for this word. -/
def schedPos (round max_pos : Nat) : Option Nat :=
  if round = 0 then some 0
  else if round = 1 ∧ 0 < max_pos then some max_pos
  else if round = 2 ∧ 1 < max_pos then some (max_pos / 2)
  else if 2 < max_pos then
    let mid := max_pos / 2
    let offset := (round - 2) / 2
    let p := if round % 2 = 1 then mid - offset else mid + offset
    if p = 0 ∨ max_pos ≤ p ∨ p = mid then none else some p
  else none

/-- The trigram at window start `pos` of a word
(`[chars[pos], chars[pos + 1], chars[pos + 2]]`).  Indexing is total via a
default character; claim C9 shows the chosen positions stay in bounds, so
the default is never read. -/
def triOf (w : Str) (pos : Nat) : Trigram :=
  (w.getD pos ' ', w.getD (pos + 1) ' ', w.getD (pos + 2) ' ')

/-- The state update for a fresh trigram: record it as visited, append the
lookup to the trace, and on a hit charge the budget counter and update the
scores. -/
def freshState (e : Engine) (pool? : Option (List Nat)) (min_len round : Nat)
    (t : Trigram) (st : SchedState) : SchedState :=
  { visited := t :: st.visited
    trigram_count := if trigramHit e t then st.trigram_count + 1 else st.trigram_count
    score := if trigramHit e t then bumpScores e pool? min_len t st.score else st.score
    lookups := st.lookups ++ [(round, t, trigramHit e t)] }

/-- One scheduler round over the unknown words (`matches_with` lines
172-232).  Returns the new state, the `processed_trigrams` flag and
whether the `break 'outer` on budget exhaustion fired. -/
def runRound (e : Engine) (pool? : Option (List Nat)) (min_len B round : Nat) :
    List Str → SchedState → Bool → SchedState × Bool × Bool
  | [], st, processed => (st, processed, false)
  | w :: rest, st, processed =>
    if B ≤ st.trigram_count then (st, processed, true)
    else
      match schedPos round (w.length - 3) with
      | none => runRound e pool? min_len B round rest st processed
      | some pos =>
        if triOf w pos ∈ st.visited then
          runRound e pool? min_len B round rest st processed
        else
          runRound e pool? min_len B round rest
            (freshState e pool? min_len round (triOf w pos) st)
            (processed || trigramHit e (triOf w pos))

/-- The outer round loop (`'outer: for round in 0..trigram_budget`), which
stops early when the budget break fired or a round processed no trigram. -/
def loopRounds (e : Engine) (pool? : Option (List Nat)) (min_len B : Nat)
    (unk : List Str) : Nat → Nat → SchedState → SchedState
  | 0, _, st => st
  | fuel + 1, round, st =>
    let r := runRound e pool? min_len B round unk st false
    if r.2.2 || !r.2.1 then r.1
    else loopRounds e pool? min_len B unk fuel (round + 1) r.1

/-- The scheduler run for given inputs, from the seeded state. -/
def schedFinalAux (e : Engine) (pool? : Option (List Nat)) (min_len B : Nat)
    (unk : List Str) : SchedState :=
  loopRounds e pool? min_len B unk B 0
    { visited := [], trigram_count := 0, score := seedScore pool?, lookups := [] }

/-- The scheduler state after answering query `q`; `min_len` is the raw
(pre-normalization) byte length of the query minus 3, saturating. -/
def schedFinal (e : Engine) (cfg : QuickMatchConfig) (q : Str) : SchedState :=
  schedFinalAux e (poolOf e cfg q) (byteLen q - 3) cfg.trigram_budget
    (unknowns e cfg q)

/-- `min_score = trigram_count.div_ceil(2).max(1)` (line 239). -/
def minScoreOf (e : Engine) (cfg : QuickMatchConfig) (q : Str) : Nat :=
  max (((schedFinal e cfg q).trigram_count + 1) / 2) 1

/-- Exact-path ranking order: item byte length ascending. -/
def lenLe (e : Engine) (h1 h2 : Nat) : Prop :=
  byteLen (itemOf e h1) ≤ byteLen (itemOf e h2)

instance (e : Engine) : DecidableRel (lenLe e) :=
  fun h1 h2 => inferInstanceAs (Decidable (byteLen (itemOf e h1) ≤ byteLen (itemOf e h2)))

instance (e : Engine) : IsTotal Nat (lenLe e) :=
  ⟨fun a b => Nat.le_total (byteLen (itemOf e a)) (byteLen (itemOf e b))⟩

instance (e : Engine) : IsTrans Nat (lenLe e) :=
  ⟨fun _ _ _ hab hbc => Nat.le_trans hab hbc⟩

/-- Fuzzy-path ranking order: score descending, then item byte length
ascending (`b.1.cmp(&a.1).then_with(|| a.0.len().cmp(&b.0.len()))`). -/
def rankLe (e : Engine) (sc : Nat → Nat) (h1 h2 : Nat) : Prop :=
  sc h2 < sc h1 ∨ (sc h1 = sc h2 ∧ byteLen (itemOf e h1) ≤ byteLen (itemOf e h2))

instance (e : Engine) (sc : Nat → Nat) : DecidableRel (rankLe e sc) :=
  fun h1 h2 => inferInstanceAs (Decidable (_ ∨ _))

instance (e : Engine) (sc : Nat → Nat) : IsTotal Nat (rankLe e sc) :=
  ⟨fun a b => by
    rcases Nat.lt_trichotomy (sc a) (sc b) with h | h | h
    · exact Or.inr (Or.inl h)
    · rcases Nat.le_total (byteLen (itemOf e a)) (byteLen (itemOf e b)) with h2 | h2
      · exact Or.inl (Or.inr ⟨h, h2⟩)
      · exact Or.inr (Or.inr ⟨h.symm, h2⟩)
    · exact Or.inl (Or.inl h)⟩

instance (e : Engine) (sc : Nat → Nat) : IsTrans Nat (rankLe e sc) :=
  ⟨fun a b c hab hbc => by
    rcases hab with h | ⟨h1, h2⟩ <;> rcases hbc with h' | ⟨h1', h2'⟩
    · exact Or.inl (Nat.lt_trans h' h)
    · exact Or.inl (by omega)
    · exact Or.inl (by omega)
    · exact Or.inr ⟨by omega, Nat.le_trans h2 h2'⟩⟩

/-- Fuzzy-path result handles (`matches_with` lines 239-259): items whose
score reaches the threshold, ranked by score descending then length
ascending, truncated to `limit`. -/
def fuzzyHandles (e : Engine) (cfg : QuickMatchConfig) (q : Str) : List Nat :=
  (List.insertionSort (rankLe e (schedFinal e cfg q).score)
    ((List.range e.items.length).filter
      (fun h => decide (minScoreOf e cfg q ≤ (schedFinal e cfg q).score h)))).take
    cfg.limit

/-- `QuickMatch::matches_with`.  The guards fail closed with an empty
result; the exact path returns the pool ranked by length ascending and
truncated to `limit` (the source's `select_nth` plus truncate plus sort is
the take of the full sort, up to unspecified tie order); otherwise the
fuzzy path runs the trigram scheduler. -/
def matchesWith (e : Engine) (cfg : QuickMatchConfig) (q : Str) : List Str :=
  if cfg.limit = 0 ∨ q = [] ∨ e.max_query_len < byteLen q then []
  else if queryWords e cfg q = [] ∨ e.max_word_count < (queryWords e cfg q).length then []
  else if unknowns e cfg q = [] then
    match poolOf e cfg q with
    | none => []
    | some p => ((List.insertionSort (lenLe e) p).take cfg.limit).map (itemOf e)
  else (fuzzyHandles e cfg q).map (itemOf e)

/-- `QuickMatch::matches`: query with the engine's own configuration
(`matches` itself is a reserved word in Lean, hence the suffix). -/
def matchesQuery (e : Engine) (q : Str) : List Str := matchesWith e e.config q

/-- The trigram-index lookups performed while answering a query, as
`(round, trigram, hit)` triples in execution order: none on the guard and
exact paths, the scheduler's lookup trace on the fuzzy path. -/
def queryLookups (e : Engine) (cfg : QuickMatchConfig) (q : Str) :
    List (Nat × Trigram × Bool) :=
  if cfg.limit = 0 ∨ q = [] ∨ e.max_query_len < byteLen q then []
  else if queryWords e cfg q = [] ∨ e.max_word_count < (queryWords e cfg q).length then []
  else if unknowns e cfg q = [] then []
  else (schedFinal e cfg q).lookups

/-- Longest item byte length of a corpus: the quantity the spec's formulas
for the frozen statistics are phrased in. -/
def longestItemByteLen (items : List Str) : Nat :=
  (items.map byteLen).foldr max 0

/-- Longest byte length among the items that contain at least one
non-empty word: the quantity the build maxima actually track. -/
def longestWordyItemByteLen (seps : List Char) (items : List Str) : Nat :=
  ((items.filter (fun it => decide (tokensOf seps it ≠ []))).map byteLen).foldr max 0

/-! ### Character and byte-length facts -/

theorem toNat_ofNat_of_valid (n : Nat) (h : n.isValidChar) :
    (Char.ofNat n).toNat = n := by
  simp [Char.ofNat, h, Char.ofNatAux, Char.toNat, UInt32.toNat, BitVec.toNat_ofNatLt]

theorem isValidChar_of_small (n : Nat) (h : n < 55296) : n.isValidChar :=
  Or.inl h

theorem asciiLower_toNat (c : Char) :
    (asciiLower c).toNat =
      if 65 ≤ c.toNat ∧ c.toNat ≤ 90 then c.toNat + 32 else c.toNat := by
  unfold asciiLower
  split
  · rename_i h
    exact toNat_ofNat_of_valid _ (isValidChar_of_small _ (by omega))
  · rfl

theorem asciiUpper_toNat (c : Char) :
    (asciiUpper c).toNat =
      if 97 ≤ c.toNat ∧ c.toNat ≤ 122 then c.toNat - 32 else c.toNat := by
  unfold asciiUpper
  split
  · rename_i h
    exact toNat_ofNat_of_valid _ (isValidChar_of_small _ (by omega))
  · rfl

theorem asciiLower_asciiUpper (c : Char) :
    asciiLower (asciiUpper c) = asciiLower c := by
  by_cases h : 97 ≤ c.toNat ∧ c.toNat ≤ 122
  · have ht : (asciiUpper c).toNat = c.toNat - 32 := by
      rw [asciiUpper_toNat, if_pos h]
    unfold asciiLower
    rw [if_pos (by omega), if_neg (by omega), ht]
    have : c.toNat - 32 + 32 = c.toNat := by omega
    rw [this, Char.ofNat_toNat]
  · unfold asciiUpper
    rw [if_neg h]

theorem charUtf8Len_asciiUpper (c : Char) :
    charUtf8Len (asciiUpper c) = charUtf8Len c := by
  by_cases h : 97 ≤ c.toNat ∧ c.toNat ≤ 122
  · have ht : (asciiUpper c).toNat = c.toNat - 32 := by
      rw [asciiUpper_toNat, if_pos h]
    unfold charUtf8Len
    rw [ht, if_pos (by omega), if_pos (by omega)]
  · unfold asciiUpper
    rw [if_neg h]

theorem isAsciiChar_asciiUpper (c : Char) :
    isAsciiChar (asciiUpper c) = isAsciiChar c := by
  by_cases h : 97 ≤ c.toNat ∧ c.toNat ≤ 122
  · have ht : (asciiUpper c).toNat = c.toNat - 32 := by
      rw [asciiUpper_toNat, if_pos h]
    unfold isAsciiChar
    rw [ht]
    have h1 : c.toNat - 32 < 128 := by omega
    have h2 : c.toNat < 128 := by omega
    simp [h1, h2]
  · unfold asciiUpper
    rw [if_neg h]

theorem rustIsWs_eq_false_of_mid (c : Char) (h1 : 33 ≤ c.toNat)
    (h2 : c.toNat ≤ 132) : rustIsWs c = false := by
  unfold rustIsWs
  rw [decide_eq_false_iff_not]
  intro hmem
  simp only [List.mem_cons, List.not_mem_nil, or_false] at hmem
  omega

theorem rustIsWs_asciiUpper (c : Char) :
    rustIsWs (asciiUpper c) = rustIsWs c := by
  by_cases h : 97 ≤ c.toNat ∧ c.toNat ≤ 122
  · have ht : (asciiUpper c).toNat = c.toNat - 32 := by
      rw [asciiUpper_toNat, if_pos h]
    rw [rustIsWs_eq_false_of_mid _ (by omega) (by omega),
      rustIsWs_eq_false_of_mid c (by omega) (by omega)]
  · unfold asciiUpper
    rw [if_neg h]

theorem isAsciiChar_asciiLower (c : Char) :
    isAsciiChar (asciiLower c) = isAsciiChar c := by
  by_cases h : 65 ≤ c.toNat ∧ c.toNat ≤ 90
  · have ht : (asciiLower c).toNat = c.toNat + 32 := by
      rw [asciiLower_toNat, if_pos h]
    unfold isAsciiChar
    rw [ht]
    have h1 : c.toNat + 32 < 128 := by omega
    have h2 : c.toNat < 128 := by omega
    simp [h1, h2]
  · unfold asciiLower
    rw [if_neg h]

theorem charUtf8Len_of_ascii (c : Char) (h : isAsciiChar c = true) :
    charUtf8Len c = 1 := by
  unfold isAsciiChar at h
  rw [decide_eq_true_iff] at h
  unfold charUtf8Len
  rw [if_pos h]

theorem byteLen_append (s t : Str) : byteLen (s ++ t) = byteLen s + byteLen t := by
  unfold byteLen
  rw [List.map_append, List.sum_append]

theorem byteLen_eq_length_of_ascii (w : Str) (h : ∀ c ∈ w, isAsciiChar c = true) :
    byteLen w = w.length := by
  induction w with
  | nil => rfl
  | cons c cs ih =>
    have hc : charUtf8Len c = 1 := charUtf8Len_of_ascii c (h c (List.mem_cons_self c cs))
    have : byteLen (c :: cs) = charUtf8Len c + byteLen cs := by
      unfold byteLen
      rw [List.map_cons, List.sum_cons]
    rw [this, hc, ih (fun d hd => h d (List.mem_cons_of_mem c hd)), List.length_cons]
    omega

/-! ### Normalization facts -/

theorem trimStart_map_asciiUpper (s : Str) :
    trimStart (s.map asciiUpper) = (trimStart s).map asciiUpper := by
  unfold trimStart
  rw [List.dropWhile_map]
  have h : (rustIsWs ∘ asciiUpper) = rustIsWs := funext rustIsWs_asciiUpper
  rw [h]

theorem trimEnd_map_asciiUpper (s : Str) :
    trimEnd (s.map asciiUpper) = (trimEnd s).map asciiUpper := by
  unfold trimEnd
  rw [← List.map_reverse, List.dropWhile_map]
  have h : (rustIsWs ∘ asciiUpper) = rustIsWs := funext rustIsWs_asciiUpper
  rw [h, List.map_reverse]

theorem trimStr_map_asciiUpper (s : Str) :
    trimStr (s.map asciiUpper) = (trimStr s).map asciiUpper := by
  unfold trimStr
  rw [trimStart_map_asciiUpper, trimEnd_map_asciiUpper]

theorem normQuery_map_asciiUpper (q : Str) :
    normQuery (q.map asciiUpper) = normQuery q := by
  unfold normQuery
  rw [trimStr_map_asciiUpper, List.filter_map]
  have h1 : (isAsciiChar ∘ asciiUpper) = isAsciiChar := funext isAsciiChar_asciiUpper
  rw [h1, List.map_map]
  have h2 : (asciiLower ∘ asciiUpper) = asciiLower := funext asciiLower_asciiUpper
  rw [h2]

theorem byteLen_map_asciiUpper (q : Str) :
    byteLen (q.map asciiUpper) = byteLen q := by
  unfold byteLen
  rw [List.map_map]
  have h : (charUtf8Len ∘ asciiUpper) = charUtf8Len := funext charUtf8Len_asciiUpper
  rw [h]

theorem trimStart_ws_append (y x : Str) (hy : ∀ c ∈ y, rustIsWs c = true) :
    trimStart (y ++ x) = trimStart x := by
  unfold trimStart
  rw [List.dropWhile_append]
  have h0 : y.dropWhile rustIsWs = [] := List.dropWhile_eq_nil_iff.mpr hy
  rw [h0]
  simp

theorem trimEnd_append_ws (x y : Str) (hy : ∀ c ∈ y, rustIsWs c = true) :
    trimEnd (x ++ y) = trimEnd x := by
  unfold trimEnd
  rw [List.reverse_append, List.dropWhile_append]
  have h0 : y.reverse.dropWhile rustIsWs = [] :=
    List.dropWhile_eq_nil_iff.mpr (fun c hc => hy c (List.mem_reverse.mp hc))
  rw [h0]
  simp

theorem trimStr_pad (s : Str) :
    trimStr ([' ', ' '] ++ s ++ [' ', ' ']) = trimStr s := by
  have hws : ∀ c ∈ ([' ', ' '] : Str), rustIsWs c = true := by
    intro c hc
    simp only [List.mem_cons, List.not_mem_nil, or_false] at hc
    rcases hc with rfl | rfl <;> decide
  unfold trimStr
  have hassoc : ([' ', ' '] ++ s ++ [' ', ' '] : Str) = [' ', ' '] ++ (s ++ [' ', ' ']) := by
    rw [List.append_assoc]
  rw [hassoc, trimStart_ws_append _ _ hws]
  unfold trimStart
  rw [List.dropWhile_append]
  by_cases h : (s.dropWhile rustIsWs).isEmpty = true
  · rw [if_pos h]
    have h2 : s.dropWhile rustIsWs = [] := List.isEmpty_iff.mp h
    rw [h2]
    have h3 : ([' ', ' '] : Str).dropWhile rustIsWs = [] := by decide
    rw [h3]
  · rw [if_neg h]
    exact trimEnd_append_ws _ _ hws

theorem byteLen_pad (s : Str) :
    byteLen ([' ', ' '] ++ s ++ [' ', ' ']) = byteLen s + 4 := by
  have hassoc : ([' ', ' '] ++ s ++ [' ', ' '] : Str) = [' ', ' '] ++ (s ++ [' ', ' ']) := by
    rw [List.append_assoc]
  rw [hassoc, byteLen_append, byteLen_append]
  have h2 : byteLen [' ', ' '] = 2 := by decide
  rw [h2]
  omega

theorem normQuery_pad (s : Str) :
    normQuery ([' ', ' '] ++ s ++ [' ', ' ']) = normQuery s := by
  unfold normQuery
  rw [trimStr_pad]

theorem trim_parts_of_trimmed (q : Str) (h : trimStr q = q) :
    trimStart q = q ∧ trimEnd q = q := by
  have hle1 : (trimStart q).length ≤ q.length := (List.dropWhile_sublist _).length_le
  have hle2 : (trimEnd (trimStart q)).length ≤ (trimStart q).length := by
    unfold trimEnd
    rw [List.length_reverse]
    calc ((trimStart q).reverse.dropWhile rustIsWs).length
        ≤ (trimStart q).reverse.length := (List.dropWhile_sublist _).length_le
      _ = (trimStart q).length := List.length_reverse _
  have hlen : (trimStart q).length = q.length := by
    have := congrArg List.length h
    unfold trimStr at this
    omega
  have h1 : trimStart q = q := by
    unfold trimStart at hlen ⊢
    cases q with
    | nil => rfl
    | cons c t =>
      rw [List.dropWhile_cons] at hlen ⊢
      by_cases hc : rustIsWs c = true
      · rw [if_pos hc] at hlen ⊢
        exfalso
        have h3 : (t.dropWhile rustIsWs).length ≤ t.length := (List.dropWhile_sublist _).length_le
        simp only [List.length_cons] at hlen
        omega
      · rw [if_neg hc]
  refine ⟨h1, ?_⟩
  unfold trimStr at h
  rw [h1] at h
  exact h

theorem head_not_ws_of_trimmed (c : Char) (t : Str) (h : trimStart (c :: t) = c :: t) :
    rustIsWs c = false := by
  unfold trimStart at h
  rw [List.dropWhile_cons] at h
  by_cases hc : rustIsWs c = true
  · rw [if_pos hc] at h
    have h1 : (t.dropWhile rustIsWs).length ≤ t.length := (List.dropWhile_sublist _).length_le
    have h2 := congrArg List.length h
    simp only [List.length_cons] at h2
    omega
  · exact Bool.eq_false_iff.mpr hc

theorem filter_ascii_trim_append_nonascii (q s : Str) (hq : trimStr q = q)
    (hqne : q ≠ []) (hs : ∀ c ∈ s, isAsciiChar c = false) :
    (trimStr (q ++ s)).filter isAsciiChar = q.filter isAsciiChar := by
  obtain ⟨hts, hte⟩ := trim_parts_of_trimmed q hq
  cases q with
  | nil => exact absurd rfl hqne
  | cons c t =>
    have hc : rustIsWs c = false := head_not_ws_of_trimmed c t hts
    have h1 : trimStart ((c :: t) ++ s) = (c :: t) ++ s := by
      unfold trimStart
      rw [List.cons_append, List.dropWhile_cons, if_neg (by simp [hc])]
    unfold trimStr
    rw [h1]
    unfold trimEnd
    rw [List.reverse_append, List.dropWhile_append]
    by_cases h2 : (s.reverse.dropWhile rustIsWs).isEmpty = true
    · rw [if_pos h2]
      have h3 : (c :: t).reverse.dropWhile rustIsWs = (c :: t).reverse := by
        unfold trimEnd at hte
        have := congrArg List.reverse hte
        rwa [List.reverse_reverse] at this
      rw [h3, List.reverse_reverse]
    · rw [if_neg h2, List.reverse_append, List.reverse_reverse, List.filter_append]
      have h4 : ((s.reverse.dropWhile rustIsWs).reverse).filter isAsciiChar = [] := by
        rw [List.filter_eq_nil_iff]
        intro d hd
        have hd2 : d ∈ s := by
          have hd3 : d ∈ s.reverse.dropWhile rustIsWs := List.mem_reverse.mp hd
          exact List.mem_reverse.mp ((List.dropWhile_sublist _).subset hd3)
        simp [hs d hd2]
      rw [h4, List.append_nil]

theorem normQuery_append_nonascii (q s : Str) (hq : trimStr q = q)
    (hqne : q ≠ []) (hs : ∀ c ∈ s, isAsciiChar c = false) :
    normQuery (q ++ s) = normQuery q := by
  unfold normQuery
  rw [filter_ascii_trim_append_nonascii q s hq hqne hs, hq]

/-! ### Query-word and classification facts -/

theorem mem_dedupFold (l : List Str) (w : Str)
    (h : w ∈ l.foldr (fun w acc => w :: acc.filter (fun v => decide (v ≠ w))) []) :
    w ∈ l := by
  induction l with
  | nil => exact absurd h (List.not_mem_nil w)
  | cons x xs ih =>
    simp only [List.foldr_cons, List.mem_cons] at h
    rcases h with rfl | h
    · exact List.mem_cons_self _ _
    · exact List.mem_cons_of_mem _ (ih (List.mem_of_mem_filter h))

theorem mem_queryWords (e : Engine) (cfg : QuickMatchConfig) (q : Str) (w : Str)
    (h : w ∈ queryWords e cfg q) :
    w ∈ splitSep cfg.separators (normQuery q) ∧ w ≠ [] ∧ byteLen w ≤ e.max_word_len := by
  unfold queryWords wordsOfNorm at h
  have h2 := mem_dedupFold _ _ h
  rw [List.mem_filter] at h2
  refine ⟨h2.1, ?_, ?_⟩
  · have := h2.2
    rw [Bool.and_eq_true, decide_eq_true_iff] at this
    exact this.1
  · have := h2.2
    rw [Bool.and_eq_true, decide_eq_true_iff, decide_eq_true_iff] at this
    exact this.2

theorem splitSepAux_chars (seps : List Char) (s : Str) :
    (∀ c ∈ (splitSepAux seps s).1, c ∈ s) ∧
      (∀ w ∈ (splitSepAux seps s).2, ∀ c ∈ w, c ∈ s) := by
  induction s with
  | nil =>
    exact ⟨fun c hc => absurd hc (List.not_mem_nil c),
      fun w hw => absurd hw (List.not_mem_nil w)⟩
  | cons d rest ih =>
    unfold splitSepAux
    by_cases hd : seps.contains d
    · rw [if_pos hd]
      refine ⟨fun c hc => absurd hc (List.not_mem_nil c), ?_⟩
      intro w hw c hc
      simp only [List.mem_cons] at hw
      rcases hw with rfl | hw
      · exact List.mem_cons_of_mem d (ih.1 c hc)
      · exact List.mem_cons_of_mem d (ih.2 w hw c hc)
    · rw [if_neg hd]
      refine ⟨?_, fun w hw c hc => List.mem_cons_of_mem d (ih.2 w hw c hc)⟩
      intro c hc
      simp only [List.mem_cons] at hc
      rcases hc with rfl | hc
      · exact List.mem_cons_self _ _
      · exact List.mem_cons_of_mem d (ih.1 c hc)

theorem splitSep_chars (seps : List Char) (s : Str) (w : Str)
    (hw : w ∈ splitSep seps s) (c : Char) (hc : c ∈ w) : c ∈ s := by
  unfold splitSep at hw
  simp only [List.mem_cons] at hw
  rcases hw with rfl | hw
  · exact (splitSepAux_chars seps s).1 c hc
  · exact (splitSepAux_chars seps s).2 w hw c hc

theorem normQuery_ascii (q : Str) (c : Char) (hc : c ∈ normQuery q) :
    isAsciiChar c = true := by
  unfold normQuery at hc
  rw [List.mem_map] at hc
  obtain ⟨d, hd, rfl⟩ := hc
  rw [List.mem_filter] at hd
  rw [isAsciiChar_asciiLower]
  exact hd.2

theorem queryWords_ascii (e : Engine) (cfg : QuickMatchConfig) (q : Str) (w : Str)
    (h : w ∈ queryWords e cfg q) : ∀ c ∈ w, isAsciiChar c = true := by
  intro c hc
  exact normQuery_ascii q c
    (splitSep_chars cfg.separators (normQuery q) w (mem_queryWords e cfg q w h).1 c hc)

theorem byteLen_queryWord (e : Engine) (cfg : QuickMatchConfig) (q : Str) (w : Str)
    (h : w ∈ queryWords e cfg q) : byteLen w = w.length :=
  byteLen_eq_length_of_ascii w (queryWords_ascii e cfg q w h)

theorem classifyStep_known (e : Engine) (B : Nat) (s : List (List Nat))
    (u : List Str) (w : Str) (hk : knownWord e w = true) :
    classifyStep e B (s, u) w = (s ++ [wordPost e w], u) := by
  unfold classifyStep
  rw [if_pos hk]

theorem classifyStep_push (e : Engine) (B : Nat) (s : List (List Nat))
    (u : List Str) (w : Str) (hk : ¬knownWord e w = true)
    (hc : 3 ≤ byteLen w ∧ u.length < B) :
    classifyStep e B (s, u) w = (s, u ++ [w]) := by
  unfold classifyStep
  rw [if_neg hk, if_pos hc]

theorem classifyStep_skip (e : Engine) (B : Nat) (s : List (List Nat))
    (u : List Str) (w : Str) (hk : ¬knownWord e w = true)
    (hc : ¬(3 ≤ byteLen w ∧ u.length < B)) :
    classifyStep e B (s, u) w = (s, u) := by
  unfold classifyStep
  rw [if_neg hk, if_neg hc]

theorem classify_fst_general (e : Engine) (B : Nat) (ws : List Str) :
    ∀ s u, (ws.foldl (classifyStep e B) (s, u)).1 =
      s ++ (ws.filter (fun w => knownWord e w)).map (wordPost e) := by
  induction ws with
  | nil => intro s u; simp
  | cons w rest ih =>
    intro s u
    rw [List.foldl_cons]
    by_cases hk : knownWord e w
    · rw [classifyStep_known e B s u w hk, ih]
      simp [List.filter_cons, hk, List.append_assoc]
    · by_cases hcond : 3 ≤ byteLen w ∧ u.length < B
      · rw [classifyStep_push e B s u w hk hcond, ih]
        simp [List.filter_cons, hk]
      · rw [classifyStep_skip e B s u w hk hcond, ih]
        simp [List.filter_cons, hk]

theorem classify_snd_mem (e : Engine) (B : Nat) (ws : List Str) :
    ∀ s u w, w ∈ (ws.foldl (classifyStep e B) (s, u)).2 →
      w ∈ u ∨ (w ∈ ws ∧ knownWord e w = false ∧ 3 ≤ byteLen w) := by
  induction ws with
  | nil => intro s u w h; exact Or.inl h
  | cons x rest ih =>
    intro s u w h
    rw [List.foldl_cons] at h
    by_cases hk : knownWord e x
    · rw [classifyStep_known e B s u x hk] at h
      rcases ih _ _ _ h with h2 | h2
      · exact Or.inl h2
      · exact Or.inr ⟨List.mem_cons_of_mem x h2.1, h2.2⟩
    · by_cases hcond : 3 ≤ byteLen x ∧ u.length < B
      · rw [classifyStep_push e B s u x hk hcond] at h
        rcases ih _ _ _ h with h2 | h2
        · rw [List.mem_append] at h2
          rcases h2 with h2 | h2
          · exact Or.inl h2
          · simp only [List.mem_singleton] at h2
            subst h2
            exact Or.inr ⟨List.mem_cons_self _ _, Bool.eq_false_iff.mpr hk, hcond.1⟩
        · exact Or.inr ⟨List.mem_cons_of_mem x h2.1, h2.2⟩
      · rw [classifyStep_skip e B s u x hk hcond] at h
        rcases ih _ _ _ h with h2 | h2
        · exact Or.inl h2
        · exact Or.inr ⟨List.mem_cons_of_mem x h2.1, h2.2⟩

theorem classify_snd_all_known (e : Engine) (B : Nat) (ws : List Str)
    (hall : ∀ w ∈ ws, knownWord e w = true) :
    ∀ s u, (ws.foldl (classifyStep e B) (s, u)).2 = u := by
  induction ws with
  | nil => intro s u; rfl
  | cons x rest ih =>
    intro s u
    rw [List.foldl_cons, classifyStep_known e B s u x (hall x (List.mem_cons_self x rest))]
    exact ih (fun w hw => hall w (List.mem_cons_of_mem x hw)) _ _

theorem classify_snd_budget0 (e : Engine) (ws : List Str) :
    ∀ s u, (ws.foldl (classifyStep e 0) (s, u)).2 = u := by
  induction ws with
  | nil => intro s u; rfl
  | cons x rest ih =>
    intro s u
    rw [List.foldl_cons]
    by_cases hk : knownWord e x
    · rw [classifyStep_known e 0 s u x hk]
      exact ih _ _
    · rw [classifyStep_skip e 0 s u x hk (by omega)]
      exact ih _ _

theorem knownSets_eq (e : Engine) (cfg : QuickMatchConfig) (q : Str) :
    knownSets e cfg q =
      ((queryWords e cfg q).filter (fun w => knownWord e w)).map (wordPost e) := by
  unfold knownSets classify
  rw [classify_fst_general]
  simp

theorem mem_unknowns (e : Engine) (cfg : QuickMatchConfig) (q : Str) (w : Str)
    (h : w ∈ unknowns e cfg q) :
    w ∈ queryWords e cfg q ∧ knownWord e w = false ∧ 3 ≤ byteLen w := by
  unfold unknowns classify at h
  rcases classify_snd_mem e cfg.trigram_budget _ _ _ _ h with h2 | h2
  · exact absurd h2 (List.not_mem_nil w)
  · exact h2

theorem unknowns_nil_of_all_known (e : Engine) (cfg : QuickMatchConfig) (q : Str)
    (hall : ∀ w ∈ queryWords e cfg q, knownWord e w = true) :
    unknowns e cfg q = [] := by
  unfold unknowns classify
  exact classify_snd_all_known e _ _ hall _ _

theorem unknowns_nil_of_budget0 (e : Engine) (cfg : QuickMatchConfig) (q : Str)
    (hB : cfg.trigram_budget = 0) : unknowns e cfg q = [] := by
  unfold unknowns classify
  rw [hB]
  exact classify_snd_budget0 e _ _ _

theorem wordPost_mem_knownSets (e : Engine) (cfg : QuickMatchConfig) (q : Str)
    (w : Str) (hw : w ∈ queryWords e cfg q) (hk : knownWord e w = true) :
    wordPost e w ∈ knownSets e cfg q := by
  rw [knownSets_eq]
  exact List.mem_map_of_mem _ (List.mem_filter.mpr ⟨hw, hk⟩)

theorem mem_wordPost (e : Engine) (w : Str) (h : Nat) :
    h ∈ wordPost e w ↔
      h < e.items.length ∧ w ∈ tokensOf e.config.separators (itemOf e h) := by
  unfold wordPost
  rw [List.mem_filter, List.mem_range, decide_eq_true_iff]

theorem poolOf_isSome_of_known (e : Engine) (cfg : QuickMatchConfig) (q : Str)
    (hk : ∃ w ∈ queryWords e cfg q, knownWord e w = true) :
    ∃ p, poolOf e cfg q = some p := by
  obtain ⟨w, hw, hkw⟩ := hk
  unfold poolOf
  rcases hks : knownSets e cfg q with _ | ⟨s0, rest⟩
  · exfalso
    have := wordPost_mem_knownSets e cfg q w hw hkw
    rw [hks] at this
    exact absurd this (List.not_mem_nil _)
  · exact ⟨_, rfl⟩

theorem mem_pool_forall (e : Engine) (cfg : QuickMatchConfig) (q : Str)
    (p : List Nat) (hp : poolOf e cfg q = some p) (h : Nat) (hh : h ∈ p) :
    ∀ s ∈ knownSets e cfg q, h ∈ s := by
  unfold poolOf at hp
  rcases hks : knownSets e cfg q with _ | ⟨s0, rest⟩
  · rw [hks] at hp
    exact absurd hp (by simp)
  · rw [hks] at hp
    simp only [Option.some.injEq] at hp
    subst hp
    rw [List.mem_filter] at hh
    intro s hs
    rw [List.mem_cons] at hs
    rcases hs with rfl | hs
    · exact hh.1
    · have := hh.2
      rw [List.all_eq_true] at this
      exact decide_eq_true_iff.mp (this s hs)

/-! ### Scheduler facts -/

/-- Number of trace entries whose lookup hit the trigram index. -/
def countHits (l : List (Nat × Trigram × Bool)) : Nat :=
  (l.filter (fun x => x.2.2)).length

theorem countHits_append (a b : List (Nat × Trigram × Bool)) :
    countHits (a ++ b) = countHits a + countHits b := by
  unfold countHits
  rw [List.filter_append, List.length_append]
theorem runRound_nil (e : Engine) (pool? : Option (List Nat)) (ml B round : Nat)
    (st : SchedState) (pr : Bool) :
    runRound e pool? ml B round [] st pr = (st, pr, false) := rfl

theorem runRound_break (e : Engine) (pool? : Option (List Nat)) (ml B round : Nat)
    (w : Str) (rest : List Str) (st : SchedState) (pr : Bool)
    (hB : B ≤ st.trigram_count) :
    runRound e pool? ml B round (w :: rest) st pr = (st, pr, true) := by
  simp only [runRound]
  rw [if_pos hB]

theorem runRound_nopos (e : Engine) (pool? : Option (List Nat)) (ml B round : Nat)
    (w : Str) (rest : List Str) (st : SchedState) (pr : Bool)
    (hB : ¬B ≤ st.trigram_count) (hpos : schedPos round (w.length - 3) = none) :
    runRound e pool? ml B round (w :: rest) st pr =
      runRound e pool? ml B round rest st pr := by
  simp only [runRound]
  rw [if_neg hB, hpos]

theorem runRound_visited (e : Engine) (pool? : Option (List Nat)) (ml B round : Nat)
    (w : Str) (rest : List Str) (st : SchedState) (pr : Bool) (pos : Nat)
    (hB : ¬B ≤ st.trigram_count) (hpos : schedPos round (w.length - 3) = some pos)
    (hv : triOf w pos ∈ st.visited) :
    runRound e pool? ml B round (w :: rest) st pr =
      runRound e pool? ml B round rest st pr := by
  simp only [runRound]
  rw [if_neg hB, hpos]
  exact if_pos hv

theorem runRound_fresh (e : Engine) (pool? : Option (List Nat)) (ml B round : Nat)
    (w : Str) (rest : List Str) (st : SchedState) (pr : Bool) (pos : Nat)
    (hB : ¬B ≤ st.trigram_count) (hpos : schedPos round (w.length - 3) = some pos)
    (hv : ¬triOf w pos ∈ st.visited) :
    runRound e pool? ml B round (w :: rest) st pr =
      runRound e pool? ml B round rest
        (freshState e pool? ml round (triOf w pos) st)
        (pr || trigramHit e (triOf w pos)) := by
  simp only [runRound]
  rw [if_neg hB, hpos]
  exact if_neg hv

theorem runRound_trace (e : Engine) (pool? : Option (List Nat)) (ml B round : Nat) :
    ∀ (ws : List Str) (st : SchedState) (pr : Bool),
      ∃ new : List (Nat × Trigram × Bool),
        (runRound e pool? ml B round ws st pr).1.lookups = st.lookups ++ new ∧
          (∀ l ∈ new, l.1 = round) ∧
          (runRound e pool? ml B round ws st pr).2.1 = (pr || new.any (fun l => l.2.2)) := by
  intro ws
  induction ws with
  | nil =>
    intro st pr
    exact ⟨[], by simp [runRound_nil], by simp, by simp [runRound_nil]⟩
  | cons w rest ih =>
    intro st pr
    by_cases hB : B ≤ st.trigram_count
    · rw [runRound_break e pool? ml B round w rest st pr hB]
      exact ⟨[], by simp, by simp, by simp⟩
    · rcases hpos : schedPos round (w.length - 3) with _ | pos
      · rw [runRound_nopos e pool? ml B round w rest st pr hB hpos]
        exact ih st pr
      · by_cases hv : triOf w pos ∈ st.visited
        · rw [runRound_visited e pool? ml B round w rest st pr pos hB hpos hv]
          exact ih st pr
        · rw [runRound_fresh e pool? ml B round w rest st pr pos hB hpos hv]
          obtain ⟨new, h1, h2, h3⟩ :=
            ih (freshState e pool? ml round (triOf w pos) st) (pr || trigramHit e (triOf w pos))
          refine ⟨(round, triOf w pos, trigramHit e (triOf w pos)) :: new, ?_, ?_, ?_⟩
          · rw [h1]
            show st.lookups ++ [(round, triOf w pos, trigramHit e (triOf w pos))] ++ new = _
            rw [List.append_assoc]
            rfl
          · intro l hl
            rcases List.mem_cons.mp hl with rfl | hl
            · rfl
            · exact h2 l hl
          · rw [h3, List.any_cons, Bool.or_assoc]

theorem runRound_inv (e : Engine) (pool? : Option (List Nat)) (ml B round : Nat) :
    ∀ (ws : List Str) (st : SchedState) (pr : Bool),
      countHits st.lookups = st.trigram_count → st.trigram_count ≤ B →
        countHits (runRound e pool? ml B round ws st pr).1.lookups =
            (runRound e pool? ml B round ws st pr).1.trigram_count ∧
          (runRound e pool? ml B round ws st pr).1.trigram_count ≤ B := by
  intro ws
  induction ws with
  | nil =>
    intro st pr h1 h2
    rw [runRound_nil]
    exact ⟨h1, h2⟩
  | cons w rest ih =>
    intro st pr h1 h2
    by_cases hB : B ≤ st.trigram_count
    · rw [runRound_break e pool? ml B round w rest st pr hB]
      exact ⟨h1, h2⟩
    · rcases hpos : schedPos round (w.length - 3) with _ | pos
      · rw [runRound_nopos e pool? ml B round w rest st pr hB hpos]
        exact ih st pr h1 h2
      · by_cases hv : triOf w pos ∈ st.visited
        · rw [runRound_visited e pool? ml B round w rest st pr pos hB hpos hv]
          exact ih st pr h1 h2
        · rw [runRound_fresh e pool? ml B round w rest st pr pos hB hpos hv]
          have hfs : (freshState e pool? ml round (triOf w pos) st).lookups =
              st.lookups ++ [(round, triOf w pos, trigramHit e (triOf w pos))] := rfl
          have hfc : (freshState e pool? ml round (triOf w pos) st).trigram_count =
              if trigramHit e (triOf w pos) then st.trigram_count + 1
              else st.trigram_count := rfl
          have hc : countHits (freshState e pool? ml round (triOf w pos) st).lookups =
              (freshState e pool? ml round (triOf w pos) st).trigram_count := by
            rw [hfs, hfc, countHits_append]
            cases hhit : trigramHit e (triOf w pos)
            · have hz : countHits [(round, triOf w pos, false)] = 0 := rfl
              rw [hz, if_neg Bool.false_ne_true, Nat.add_zero]
              exact h1
            · have ho : countHits [(round, triOf w pos, true)] = 1 := rfl
              rw [ho, if_pos rfl, h1]
          have hb : (freshState e pool? ml round (triOf w pos) st).trigram_count ≤ B := by
            rw [hfc]
            cases hhit : trigramHit e (triOf w pos)
            · rw [if_neg Bool.false_ne_true]
              exact h2
            · rw [if_pos rfl]
              omega
          exact ih _ _ hc hb

theorem loopRounds_zero (e : Engine) (pool? : Option (List Nat)) (ml B : Nat)
    (unk : List Str) (round : Nat) (st : SchedState) :
    loopRounds e pool? ml B unk 0 round st = st := rfl

theorem loopRounds_succ (e : Engine) (pool? : Option (List Nat)) (ml B : Nat)
    (unk : List Str) (n round : Nat) (st : SchedState) :
    loopRounds e pool? ml B unk (n + 1) round st =
      if (runRound e pool? ml B round unk st false).2.2 ||
          !(runRound e pool? ml B round unk st false).2.1 then
        (runRound e pool? ml B round unk st false).1
      else
        loopRounds e pool? ml B unk n (round + 1)
          (runRound e pool? ml B round unk st false).1 := rfl

theorem loopRounds_extends (e : Engine) (pool? : Option (List Nat)) (ml B : Nat)
    (unk : List Str) :
    ∀ (fuel round : Nat) (st : SchedState),
      ∃ suf, (loopRounds e pool? ml B unk fuel round st).lookups = st.lookups ++ suf := by
  intro fuel
  induction fuel with
  | zero => intro round st; exact ⟨[], by simp [loopRounds_zero]⟩
  | succ n ih =>
    intro round st
    obtain ⟨new, h1, _, _⟩ := runRound_trace e pool? ml B round unk st false
    rw [loopRounds_succ]
    by_cases hstop : ((runRound e pool? ml B round unk st false).2.2 ||
        !(runRound e pool? ml B round unk st false).2.1) = true
    · rw [if_pos hstop]
      exact ⟨new, h1⟩
    · rw [if_neg hstop]
      obtain ⟨suf, h2⟩ := ih (round + 1) (runRound e pool? ml B round unk st false).1
      exact ⟨new ++ suf, by rw [h2, h1, List.append_assoc]⟩

theorem loopRounds_inv (e : Engine) (pool? : Option (List Nat)) (ml B : Nat)
    (unk : List Str) :
    ∀ (fuel round : Nat) (st : SchedState),
      countHits st.lookups = st.trigram_count → st.trigram_count ≤ B →
        countHits (loopRounds e pool? ml B unk fuel round st).lookups =
            (loopRounds e pool? ml B unk fuel round st).trigram_count ∧
          (loopRounds e pool? ml B unk fuel round st).trigram_count ≤ B := by
  intro fuel
  induction fuel with
  | zero =>
    intro round st h1 h2
    rw [loopRounds_zero]
    exact ⟨h1, h2⟩
  | succ n ih =>
    intro round st h1 h2
    obtain ⟨hc, hb⟩ := runRound_inv e pool? ml B round unk st false h1 h2
    rw [loopRounds_succ]
    by_cases hstop : ((runRound e pool? ml B round unk st false).2.2 ||
        !(runRound e pool? ml B round unk st false).2.1) = true
    · rw [if_pos hstop]
      exact ⟨hc, hb⟩
    · rw [if_neg hstop]
      exact ih (round + 1) _ hc hb

theorem loopRounds_miss_bound (e : Engine) (pool? : Option (List Nat)) (ml B : Nat)
    (unk : List Str) (r : Nat) :
    ∀ (fuel round : Nat) (st : SchedState), round ≤ r →
      (∀ l ∈ st.lookups, l.1 ≤ r) →
      (∀ l ∈ (loopRounds e pool? ml B unk fuel round st).lookups, l.1 = r → l.2.2 = false) →
      ∀ l ∈ (loopRounds e pool? ml B unk fuel round st).lookups, l.1 ≤ r := by
  intro fuel
  induction fuel with
  | zero =>
    intro round st _ hst _ l hl
    rw [loopRounds_zero] at hl
    exact hst l hl
  | succ n ih =>
    intro round st hround hst hmiss l hl
    obtain ⟨new, h1, h2, h3⟩ := runRound_trace e pool? ml B round unk st false
    rw [loopRounds_succ] at hl hmiss
    by_cases hstop : ((runRound e pool? ml B round unk st false).2.2 ||
        !(runRound e pool? ml B round unk st false).2.1) = true
    · rw [if_pos hstop] at hl
      rw [h1] at hl
      rcases List.mem_append.mp hl with hl2 | hl2
      · exact hst l hl2
      · rw [h2 l hl2]
        exact hround
    · rw [if_neg hstop] at hl hmiss
      have hne : round ≠ r := by
        intro hrr
        rw [Bool.or_eq_true, not_or, Bool.not_eq_true, Bool.not_eq_true',
          Bool.not_eq_false] at hstop
        have hproc := hstop.2
        rw [h3, Bool.false_or, List.any_eq_true] at hproc
        obtain ⟨x, hx, hxhit⟩ := hproc
        obtain ⟨suf, hsuf⟩ :=
          loopRounds_extends e pool? ml B unk n (round + 1)
            (runRound e pool? ml B round unk st false).1
        have hxin : x ∈ (loopRounds e pool? ml B unk n (round + 1)
            (runRound e pool? ml B round unk st false).1).lookups := by
          rw [hsuf, h1]
          exact List.mem_append.mpr (Or.inl (List.mem_append.mpr (Or.inr hx)))
        have hxf := hmiss x hxin (by rw [h2 x hx, hrr])
        rw [hxf] at hxhit
        exact Bool.false_ne_true hxhit
      have hst2 : ∀ l2 ∈ (runRound e pool? ml B round unk st false).1.lookups, l2.1 ≤ r := by
        intro l2 hl2
        rw [h1] at hl2
        rcases List.mem_append.mp hl2 with hl3 | hl3
        · exact hst l2 hl3
        · rw [h2 l2 hl3]
          exact hround
      exact ih (round + 1) _ (by omega) hst2 hmiss l hl

theorem bumpScores_pool_mem (e : Engine) (p : List Nat) (ml : Nat) (t : Trigram)
    (sc : Nat → Nat) (hsc : ∀ h, sc h ≠ 0 → h ∈ p) :
    ∀ h, bumpScores e (some p) ml t sc h ≠ 0 → h ∈ p := by
  intro h hne
  unfold bumpScores at hne
  dsimp only at hne
  by_cases hpost : decide (h ∈ trigramPost e t) = true
  · rw [if_pos hpost] at hne
    by_cases hp : decide (h ∈ p) = true
    · exact decide_eq_true_iff.mp hp
    · rw [if_neg hp] at hne
      exact hsc h hne
  · rw [if_neg hpost] at hne
    exact hsc h hne

theorem freshState_score_pool (e : Engine) (p : List Nat) (ml round : Nat)
    (t : Trigram) (st : SchedState) (hsc : ∀ h, st.score h ≠ 0 → h ∈ p) :
    ∀ h, (freshState e (some p) ml round t st).score h ≠ 0 → h ∈ p := by
  intro h hne
  have hs : (freshState e (some p) ml round t st).score =
      if trigramHit e t then bumpScores e (some p) ml t st.score else st.score := rfl
  rw [hs] at hne
  by_cases hhit : trigramHit e t = true
  · rw [if_pos hhit] at hne
    exact bumpScores_pool_mem e p ml t st.score hsc h hne
  · rw [if_neg hhit] at hne
    exact hsc h hne

theorem runRound_score_pool (e : Engine) (p : List Nat) (ml B round : Nat) :
    ∀ (ws : List Str) (st : SchedState) (pr : Bool),
      (∀ h, st.score h ≠ 0 → h ∈ p) →
      ∀ h, (runRound e (some p) ml B round ws st pr).1.score h ≠ 0 → h ∈ p := by
  intro ws
  induction ws with
  | nil =>
    intro st pr hsc h hne
    rw [runRound_nil] at hne
    exact hsc h hne
  | cons w rest ih =>
    intro st pr hsc h hne
    by_cases hB : B ≤ st.trigram_count
    · rw [runRound_break e (some p) ml B round w rest st pr hB] at hne
      exact hsc h hne
    · rcases hpos : schedPos round (w.length - 3) with _ | pos
      · rw [runRound_nopos e (some p) ml B round w rest st pr hB hpos] at hne
        exact ih st pr hsc h hne
      · by_cases hv : triOf w pos ∈ st.visited
        · rw [runRound_visited e (some p) ml B round w rest st pr pos hB hpos hv] at hne
          exact ih st pr hsc h hne
        · rw [runRound_fresh e (some p) ml B round w rest st pr pos hB hpos hv] at hne
          exact ih _ _ (freshState_score_pool e p ml round (triOf w pos) st hsc) h hne

theorem loopRounds_score_pool (e : Engine) (p : List Nat) (ml B : Nat)
    (unk : List Str) :
    ∀ (fuel round : Nat) (st : SchedState),
      (∀ h, st.score h ≠ 0 → h ∈ p) →
      ∀ h, (loopRounds e (some p) ml B unk fuel round st).score h ≠ 0 → h ∈ p := by
  intro fuel
  induction fuel with
  | zero =>
    intro round st hsc h hne
    rw [loopRounds_zero] at hne
    exact hsc h hne
  | succ n ih =>
    intro round st hsc h hne
    have hsc2 := runRound_score_pool e p ml B round unk st false hsc
    rw [loopRounds_succ] at hne
    by_cases hstop : ((runRound e (some p) ml B round unk st false).2.2 ||
        !(runRound e (some p) ml B round unk st false).2.1) = true
    · rw [if_pos hstop] at hne
      exact hsc2 h hne
    · rw [if_neg hstop] at hne
      exact ih (round + 1) _ hsc2 h hne

theorem bumpScores_ml (e : Engine) (p : List Nat) (ml ml' : Nat) (t : Trigram)
    (sc : Nat → Nat) :
    bumpScores e (some p) ml t sc = bumpScores e (some p) ml' t sc := rfl

theorem freshState_ml (e : Engine) (p : List Nat) (ml ml' round : Nat)
    (t : Trigram) (st : SchedState) :
    freshState e (some p) ml round t st = freshState e (some p) ml' round t st := rfl

theorem runRound_ml (e : Engine) (p : List Nat) (ml ml' B round : Nat) :
    ∀ (ws : List Str) (st : SchedState) (pr : Bool),
      runRound e (some p) ml B round ws st pr =
        runRound e (some p) ml' B round ws st pr := by
  intro ws
  induction ws with
  | nil => intro st pr; rw [runRound_nil, runRound_nil]
  | cons w rest ih =>
    intro st pr
    by_cases hB : B ≤ st.trigram_count
    · rw [runRound_break e (some p) ml B round w rest st pr hB,
        runRound_break e (some p) ml' B round w rest st pr hB]
    · rcases hpos : schedPos round (w.length - 3) with _ | pos
      · rw [runRound_nopos e (some p) ml B round w rest st pr hB hpos,
          runRound_nopos e (some p) ml' B round w rest st pr hB hpos]
        exact ih st pr
      · by_cases hv : triOf w pos ∈ st.visited
        · rw [runRound_visited e (some p) ml B round w rest st pr pos hB hpos hv,
            runRound_visited e (some p) ml' B round w rest st pr pos hB hpos hv]
          exact ih st pr
        · rw [runRound_fresh e (some p) ml B round w rest st pr pos hB hpos hv,
            runRound_fresh e (some p) ml' B round w rest st pr pos hB hpos hv,
            freshState_ml e p ml ml' round (triOf w pos) st]
          exact ih _ _

theorem loopRounds_ml (e : Engine) (p : List Nat) (ml ml' B : Nat) (unk : List Str) :
    ∀ (fuel round : Nat) (st : SchedState),
      loopRounds e (some p) ml B unk fuel round st =
        loopRounds e (some p) ml' B unk fuel round st := by
  intro fuel
  induction fuel with
  | zero => intro round st; rw [loopRounds_zero, loopRounds_zero]
  | succ n ih =>
    intro round st
    rw [loopRounds_succ, loopRounds_succ, runRound_ml e p ml ml' B round unk st false]
    by_cases hstop : ((runRound e (some p) ml' B round unk st false).2.2 ||
        !(runRound e (some p) ml' B round unk st false).2.1) = true
    · rw [if_pos hstop, if_pos hstop]
    · rw [if_neg hstop, if_neg hstop]
      exact ih (round + 1) _

theorem schedPos_bound (L r pos : Nat) (hL : 3 ≤ L)
    (h : schedPos r (L - 3) = some pos) : pos + 2 < L := by
  simp only [schedPos] at h
  split_ifs at h <;>
    first
    | exact Option.noConfusion h
    | (simp only [Option.some.injEq] at h; omega)

/-! ### Dispatch facts -/

theorem guard1_false (e : Engine) (cfg : QuickMatchConfig) (q : Str)
    (hlim : cfg.limit ≠ 0) (hq : q ≠ []) (hb : byteLen q ≤ e.max_query_len) :
    ¬(cfg.limit = 0 ∨ q = [] ∨ e.max_query_len < byteLen q) := by
  intro h
  rcases h with h | h | h
  · exact hlim h
  · exact hq h
  · omega

theorem matchesWith_exact (e : Engine) (cfg : QuickMatchConfig) (q : Str)
    (p : List Nat)
    (hg1 : ¬(cfg.limit = 0 ∨ q = [] ∨ e.max_query_len < byteLen q))
    (hg2 : ¬(queryWords e cfg q = [] ∨ e.max_word_count < (queryWords e cfg q).length))
    (hun : unknowns e cfg q = []) (hp : poolOf e cfg q = some p) :
    matchesWith e cfg q =
      ((List.insertionSort (lenLe e) p).take cfg.limit).map (itemOf e) := by
  unfold matchesWith
  rw [if_neg hg1, if_neg hg2, if_pos hun, hp]

theorem matchesWith_fuzzy (e : Engine) (cfg : QuickMatchConfig) (q : Str)
    (hg1 : ¬(cfg.limit = 0 ∨ q = [] ∨ e.max_query_len < byteLen q))
    (hg2 : ¬(queryWords e cfg q = [] ∨ e.max_word_count < (queryWords e cfg q).length))
    (hun : unknowns e cfg q ≠ []) :
    matchesWith e cfg q = (fuzzyHandles e cfg q).map (itemOf e) := by
  unfold matchesWith
  rw [if_neg hg1, if_neg hg2, if_neg hun]

theorem queryLookups_fuzzy (e : Engine) (cfg : QuickMatchConfig) (q : Str)
    (hg1 : ¬(cfg.limit = 0 ∨ q = [] ∨ e.max_query_len < byteLen q))
    (hg2 : ¬(queryWords e cfg q = [] ∨ e.max_word_count < (queryWords e cfg q).length))
    (hun : unknowns e cfg q ≠ []) :
    queryLookups e cfg q = (schedFinal e cfg q).lookups := by
  unfold queryLookups
  rw [if_neg hg1, if_neg hg2, if_neg hun]

theorem matchesWith_congr (e : Engine) (cfg : QuickMatchConfig) (q1 q2 : Str)
    (hb : byteLen q1 = byteLen q2) (hemp : q1 = [] ↔ q2 = [])
    (hn : normQuery q1 = normQuery q2) :
    matchesWith e cfg q1 = matchesWith e cfg q2 := by
  have hw : queryWords e cfg q1 = queryWords e cfg q2 := by
    unfold queryWords
    rw [hn]
  have hcl : classify e cfg q1 = classify e cfg q2 := by
    unfold classify
    rw [hw]
  have hu : unknowns e cfg q1 = unknowns e cfg q2 := by
    unfold unknowns
    rw [hcl]
  have hks : knownSets e cfg q1 = knownSets e cfg q2 := by
    unfold knownSets
    rw [hcl]
  have hp : poolOf e cfg q1 = poolOf e cfg q2 := by
    unfold poolOf
    rw [hks]
  have hsf : schedFinal e cfg q1 = schedFinal e cfg q2 := by
    unfold schedFinal schedFinalAux
    rw [hp, hu, hb]
  have hfz : fuzzyHandles e cfg q1 = fuzzyHandles e cfg q2 := by
    unfold fuzzyHandles minScoreOf
    rw [hsf]
  unfold matchesWith
  rw [hw, hu, hp, hfz, hb]
  simp only [hemp]

theorem matchesWith_known_congr (e : Engine) (cfg : QuickMatchConfig) (q1 q2 : Str)
    (h1 : q1 ≠ []) (h2 : q2 ≠ []) (hn : normQuery q1 = normQuery q2)
    (hb1 : byteLen q1 ≤ e.max_query_len) (hb2 : byteLen q2 ≤ e.max_query_len)
    (hk : ∃ w ∈ queryWords e cfg q1, knownWord e w = true) :
    matchesWith e cfg q1 = matchesWith e cfg q2 := by
  have hw : queryWords e cfg q1 = queryWords e cfg q2 := by
    unfold queryWords
    rw [hn]
  have hcl : classify e cfg q1 = classify e cfg q2 := by
    unfold classify
    rw [hw]
  have hu : unknowns e cfg q1 = unknowns e cfg q2 := by
    unfold unknowns
    rw [hcl]
  have hks : knownSets e cfg q1 = knownSets e cfg q2 := by
    unfold knownSets
    rw [hcl]
  have hp : poolOf e cfg q1 = poolOf e cfg q2 := by
    unfold poolOf
    rw [hks]
  obtain ⟨p, hpe⟩ := poolOf_isSome_of_known e cfg q1 hk
  have hpe2 : poolOf e cfg q2 = some p := by
    rw [← hp]
    exact hpe
  have hsf : schedFinal e cfg q1 = schedFinal e cfg q2 := by
    unfold schedFinal schedFinalAux
    rw [hpe, hpe2, hu]
    exact loopRounds_ml e p (byteLen q1 - 3) (byteLen q2 - 3) cfg.trigram_budget
      (unknowns e cfg q2) cfg.trigram_budget 0 _
  have hfz : fuzzyHandles e cfg q1 = fuzzyHandles e cfg q2 := by
    unfold fuzzyHandles minScoreOf
    rw [hsf]
  by_cases hlim : cfg.limit = 0
  · unfold matchesWith
    rw [if_pos (Or.inl hlim), if_pos (Or.inl hlim)]
  · unfold matchesWith
    rw [hw, hu, hp, hfz,
      if_neg (guard1_false e cfg q1 hlim h1 hb1),
      if_neg (guard1_false e cfg q2 hlim h2 hb2)]

/-! ### Concrete corpora used by the witnesses and counterexamples -/

/-- Corpus with trigrams `zab`, `abc`, `bcd`, `cde`. -/
def cexItems1 : List Str := [['z', 'a', 'b', 'c', 'd', 'e']]

/-- Default configuration with a trigram budget of 2. -/
def cexCfg1 : QuickMatchConfig :=
  { separators := ['_', '-', ' '], limit := 100, trigram_budget := 2 }

/-- The query `abcd xyz`: two unknown words, one with hitting trigrams. -/
def cexQuery1 : Str := ['a', 'b', 'c', 'd', ' ', 'x', 'y', 'z']

/-- Corpus `["abcdef"]`. -/
def cexItems3 : List Str := [['a', 'b', 'c', 'd', 'e', 'f']]

/-- Corpus `["abc"]`. -/
def wItemsAbc : List Str := [['a', 'b', 'c']]

/-- Corpus `["apple"]`. -/
def wItemsApple : List Str := [['a', 'p', 'p', 'l', 'e']]

/-! ### Claims -/

/-- Claim C1, counterexample: on the corpus `["zabcde"]` with trigram
budget 2, the query `abcd xyz` performs 3 trigram-index lookups (`abc`
hit, `xyz` miss, `bcd` hit): misses are looked up but not charged, so the
lookup count exceeds the budget. -/
theorem claim1_counterexample :
    ¬((queryLookups (new_with cexItems1 cexCfg1) cexCfg1 cexQuery1).length ≤
      cexCfg1.trigram_budget) := by decide

/-- Claim C1, amended: the budget is charged once per fresh trigram whose
lookup hits the index, so the number of trigram-index lookups that hit is
at most `trigram_budget`; lookups on missing trigrams are not charged and
the total lookup count can exceed the budget. -/
theorem claim1_hits_within_budget (e : Engine) (cfg : QuickMatchConfig) (q : Str) :
    countHits (queryLookups e cfg q) ≤ cfg.trigram_budget := by
  unfold queryLookups
  split_ifs with hg1 hg2 hg3
  · exact Nat.zero_le _
  · exact Nat.zero_le _
  · exact Nat.zero_le _
  · unfold schedFinal schedFinalAux
    have hinv := loopRounds_inv e (poolOf e cfg q) (byteLen q - 3) cfg.trigram_budget
      (unknowns e cfg q) cfg.trigram_budget 0
      { visited := [], trigram_count := 0, score := seedScore (poolOf e cfg q),
        lookups := [] } rfl (Nat.zero_le _)
    rw [hinv.1]
    exact hinv.2

/-- Claim C8: the query path fails closed: an empty raw query, a raw byte
length beyond `max_query_len`, an empty word set, or a word set larger
than `max_word_count` each yield the empty result (and `matchesWith` is a
total function, so no error is ever raised). -/
theorem claim8_fail_closed (e : Engine) (cfg : QuickMatchConfig) (q : Str)
    (h : q = [] ∨ e.max_query_len < byteLen q ∨ queryWords e cfg q = [] ∨
      e.max_word_count < (queryWords e cfg q).length) :
    matchesWith e cfg q = [] := by
  unfold matchesWith
  rcases h with h | h | h | h
  · rw [if_pos (Or.inr (Or.inl h))]
  · rw [if_pos (Or.inr (Or.inr h))]
  · by_cases hg1 : cfg.limit = 0 ∨ q = [] ∨ e.max_query_len < byteLen q
    · rw [if_pos hg1]
    · rw [if_neg hg1, if_pos (Or.inl h)]
  · by_cases hg1 : cfg.limit = 0 ∨ q = [] ∨ e.max_query_len < byteLen q
    · rw [if_pos hg1]
    · rw [if_neg hg1, if_pos (Or.inr h)]

/-- Witness for C8: the empty query on the corpus `["abc"]` returns no
results. -/
theorem claim8_witness :
    matchesWith (new_with wItemsAbc defaultConfig) defaultConfig [] = [] :=
  claim8_fail_closed (new_with wItemsAbc defaultConfig) defaultConfig []
    (Or.inl rfl)

/-- Claim C9: every word that reaches the position schedule (an accepted
unknown word) has character length at least 3 — its byte length and
character length agree because the query was ASCII-filtered — and every
position the schedule yields keeps the trigram window in bounds:
`pos + 2 < len`. -/
theorem claim9_schedule_safe (e : Engine) (cfg : QuickMatchConfig) (q : Str)
    (w : Str) (h : w ∈ unknowns e cfg q) :
    3 ≤ w.length ∧
      ∀ r pos, schedPos r (w.length - 3) = some pos → pos + 2 < w.length := by
  obtain ⟨hqw, hk, hlen⟩ := mem_unknowns e cfg q w h
  have hb : byteLen w = w.length := byteLen_queryWord e cfg q w hqw
  have h3 : 3 ≤ w.length := by omega
  exact ⟨h3, fun r pos hp => schedPos_bound w.length r pos h3 hp⟩

/-- Witness for C9: the word `xyz` is an accepted unknown word of the
query `xyz` on the corpus `["abc"]`; its length is at least 3 and the
round-0 window at position 0 is in bounds. -/
theorem claim9_witness :
    3 ≤ (['x', 'y', 'z'] : Str).length ∧ 0 + 2 < (['x', 'y', 'z'] : Str).length :=
  ⟨(claim9_schedule_safe (new_with wItemsAbc defaultConfig) defaultConfig
      ['x', 'y', 'z'] ['x', 'y', 'z'] (by decide)).1,
    (claim9_schedule_safe (new_with wItemsAbc defaultConfig) defaultConfig
      ['x', 'y', 'z'] ['x', 'y', 'z'] (by decide)).2 0 0 (by decide)⟩

/-- Claim C10: if every trigram-index lookup of round `r` missed (and a
round with no fresh lookups at all also counts: its processed flag stays
false), the scheduler stops after round `r`: every lookup performed while
answering the query belongs to a round of index at most `r`.  With `r = 0`
this is the claim's concrete reading: when all round-0 trigrams miss, no
trigram of a later round is ever probed. -/
theorem claim10_missed_round_stops (e : Engine) (cfg : QuickMatchConfig)
    (q : Str) (r : Nat)
    (hmiss : ∀ l ∈ queryLookups e cfg q, l.1 = r → l.2.2 = false) :
    ∀ l ∈ queryLookups e cfg q, l.1 ≤ r := by
  unfold queryLookups at hmiss ⊢
  split_ifs at hmiss ⊢ with hg1 hg2 hg3
  · intro l hl
    exact absurd hl (List.not_mem_nil l)
  · intro l hl
    exact absurd hl (List.not_mem_nil l)
  · intro l hl
    exact absurd hl (List.not_mem_nil l)
  · unfold schedFinal schedFinalAux at hmiss ⊢
    exact loopRounds_miss_bound e (poolOf e cfg q) (byteLen q - 3)
      cfg.trigram_budget (unknowns e cfg q) r cfg.trigram_budget 0
      { visited := [], trigram_count := 0, score := seedScore (poolOf e cfg q),
        lookups := [] }
      (Nat.zero_le r) (fun l hl => absurd hl (List.not_mem_nil l)) hmiss

/-- Witness for C10: on the corpus `["abc"]` the query `xyz` probes only
the round-0 trigram `xyz`, which misses; the scheduler stops and the one
recorded lookup is in round 0. -/
theorem claim10_witness :
    ((0 : Nat), (('x', 'y', 'z') : Trigram), false).1 ≤ 0 :=
  claim10_missed_round_stops (new_with wItemsAbc defaultConfig) defaultConfig
    ['x', 'y', 'z'] 0 (by decide) (0, ('x', 'y', 'z'), false) (by decide)

/-! ### Build statistics facts (C2) -/

theorem inner_fold_eq (L : Nat) (ws : List Str) :
    ∀ a, ws.foldl (fun x w => if w = [] then x else max x L) a =
      if ws.filter (fun w => decide (w ≠ [])) = [] then a else max a L := by
  induction ws with
  | nil => intro a; simp
  | cons w rest ih =>
    intro a
    rw [List.foldl_cons]
    by_cases hw : w = []
    · rw [if_pos hw, ih]
      simp [List.filter_cons, hw]
    · rw [if_neg hw, ih]
      have hcons : (w :: rest).filter (fun w => decide (w ≠ [])) =
          w :: rest.filter (fun w => decide (w ≠ [])) := by
        simp [List.filter_cons, hw]
      rw [hcons, if_neg (List.cons_ne_nil w _)]
      by_cases hrest : rest.filter (fun w => decide (w ≠ [])) = []
      · rw [if_pos hrest]
      · rw [if_neg hrest, Nat.max_assoc, Nat.max_self]

theorem rawMaxWordLen_eq (seps : List Char) (items : List Str) :
    rawMaxWordLen seps items = longestWordyItemByteLen seps items := by
  suffices h : ∀ a, items.foldl
      (fun acc it =>
        (splitSep seps it).foldl
          (fun x w => if w = [] then x else max x (byteLen it)) acc) a =
      max a (longestWordyItemByteLen seps items) by
    have := h 0
    unfold rawMaxWordLen
    rw [this]
    exact (Nat.zero_max _) ▸ rfl
  induction items with
  | nil =>
    intro a
    unfold longestWordyItemByteLen
    simp
  | cons it rest ih =>
    intro a
    rw [List.foldl_cons, inner_fold_eq, ih]
    unfold longestWordyItemByteLen tokensOf
    by_cases hit : (splitSep seps it).filter (fun w => decide (w ≠ [])) = []
    · rw [if_pos hit]
      have hp : decide ((splitSep seps it).filter (fun w => decide (w ≠ [])) ≠ []) = false := by
        rw [decide_eq_false_iff_not]
        intro hne
        exact hne hit
      have hfc : (it :: rest).filter
          (fun it => decide ((splitSep seps it).filter (fun w => decide (w ≠ [])) ≠ [])) =
          rest.filter
            (fun it => decide ((splitSep seps it).filter (fun w => decide (w ≠ [])) ≠ [])) := by
        rw [List.filter_cons, hp, if_neg Bool.false_ne_true]
      rw [hfc]
    · rw [if_neg hit]
      have hp : decide ((splitSep seps it).filter (fun w => decide (w ≠ [])) ≠ []) = true := by
        rw [decide_eq_true_iff]
        exact hit
      have hfc : (it :: rest).filter
          (fun it => decide ((splitSep seps it).filter (fun w => decide (w ≠ [])) ≠ [])) =
          it :: rest.filter
            (fun it => decide ((splitSep seps it).filter (fun w => decide (w ≠ [])) ≠ [])) := by
        rw [List.filter_cons, hp, if_pos rfl]
      rw [hfc, List.map_cons, List.foldr_cons, Nat.max_assoc]

/-- Claim C2, counterexample: on the corpus `["ab", "---"]` (the second
item has no non-empty word) the build stores `max_word_len = 6`, not the
longest item byte length 3 plus 4, and `max_word_count = 4`, which is
`max_word_len - 2`, not `max_word_len + 2`. -/
theorem claim2_counterexample :
    ¬((new_with [['a', 'b'], ['-', '-', '-']] defaultConfig).max_word_len =
        longestItemByteLen [['a', 'b'], ['-', '-', '-']] + 4 ∧
      (new_with [['a', 'b'], ['-', '-', '-']] defaultConfig).max_word_count =
        (new_with [['a', 'b'], ['-', '-', '-']] defaultConfig).max_word_len + 2) := by
  decide

/-- Claim C2, amended: after build, `max_word_len` is 4 plus the longest
byte length among the items that contain at least one non-empty word
(0 when there is none), and `max_word_count` is that longest length plus 2
— i.e. `max_word_len - 2`, since the source adds 2 to the raw running
maximum before its own `+ 4` offset is applied. -/
theorem claim2_amended (items : List Str) (cfg : QuickMatchConfig) :
    (new_with items cfg).max_word_len =
        longestWordyItemByteLen cfg.separators items + 4 ∧
      (new_with items cfg).max_word_count =
        longestWordyItemByteLen cfg.separators items + 2 ∧
      (new_with items cfg).max_word_count + 2 = (new_with items cfg).max_word_len := by
  have h1 : (new_with items cfg).max_word_len = rawMaxWordLen cfg.separators items + 4 := rfl
  have h2 : (new_with items cfg).max_word_count = rawMaxWordLen cfg.separators items + 2 := rfl
  rw [h1, h2, rawMaxWordLen_eq]
  omega

/-! ### Claims C3 and C4 -/

/-- Claim C3, counterexample: on the corpus `["abcdef"]`, the query `abcd`
(byte length 4, within `max_query_len = 12`) returns `["abcdef"]`, but
appending the non-ASCII suffix `ééé` (6 bytes, total still within
`max_query_len`) raises the open-mode length filter `min_len` from 1 to 7
and the result becomes empty. -/
theorem claim3_counterexample :
    byteLen (['a', 'b', 'c', 'd'] : Str) ≤
        (new_with cexItems3 defaultConfig).max_query_len ∧
      (∀ c ∈ (['é', 'é', 'é'] : Str), isAsciiChar c = false) ∧
      matchesWith (new_with cexItems3 defaultConfig) defaultConfig
          ((['a', 'b', 'c', 'd'] : Str) ++ ['é', 'é', 'é']) ≠
        matchesWith (new_with cexItems3 defaultConfig) defaultConfig
          ['a', 'b', 'c', 'd'] := by decide

/-- Claim C3, amended: appending a non-ASCII suffix leaves the result
unchanged provided the suffixed query's byte length is still within
`max_query_len`, the query carries no leading/trailing whitespace (the
suffix would otherwise block trimming), and the query has at least one
known word — in pool mode the raw byte length only feeds the guards, while
in open mode the suffix inflates the `min_len = query_len - 3` filter and
can change the result, as the counterexample shows. -/
theorem claim3_nonascii_suffix (e : Engine) (cfg : QuickMatchConfig) (q s : Str)
    (hq : q ≠ []) (ht : trimStr q = q)
    (hs : ∀ c ∈ s, isAsciiChar c = false)
    (hb : byteLen (q ++ s) ≤ e.max_query_len)
    (hk : ∃ w ∈ queryWords e cfg q, knownWord e w = true) :
    matchesWith e cfg (q ++ s) = matchesWith e cfg q := by
  have hn : normQuery (q ++ s) = normQuery q := normQuery_append_nonascii q s ht hq hs
  have hqs : q ++ s ≠ [] := by
    intro h
    rw [List.append_eq_nil] at h
    exact hq h.1
  have hb2 : byteLen q ≤ e.max_query_len := by
    have := byteLen_append q s
    omega
  have hk2 : ∃ w ∈ queryWords e cfg (q ++ s), knownWord e w = true := by
    unfold queryWords
    rw [hn]
    exact hk
  exact matchesWith_known_congr e cfg (q ++ s) q hqs hq hn hb hb2 hk2

/-- Witness for C3 (amended): on the corpus `["apple"]`, the known-word
query `apple` with the 2-byte suffix `é` appended returns the same result
as `apple` alone. -/
theorem claim3_witness :
    matchesWith (new_with wItemsApple defaultConfig) defaultConfig
        ((['a', 'p', 'p', 'l', 'e'] : Str) ++ ['é']) =
      matchesWith (new_with wItemsApple defaultConfig) defaultConfig
        ['a', 'p', 'p', 'l', 'e'] :=
  claim3_nonascii_suffix (new_with wItemsApple defaultConfig) defaultConfig
    ['a', 'p', 'p', 'l', 'e'] ['é'] (by decide) (by decide) (by decide)
    (by decide) (by decide)

/-- Claim C4, counterexample: on the corpus `["abcdef"]`, the open-mode
query `abcdeg` returns `["abcdef"]`, but padding it with two spaces on
each side (still within `max_query_len`) raises `min_len` from 3 to 7 and
the result becomes empty, so `query(s) = query("  " + s + "  ")` fails. -/
theorem claim4_counterexample :
    matchesWith (new_with cexItems3 defaultConfig) defaultConfig
        ([' ', ' '] ++ ['a', 'b', 'c', 'd', 'e', 'g'] ++ [' ', ' ']) ≠
      matchesWith (new_with cexItems3 defaultConfig) defaultConfig
        ['a', 'b', 'c', 'd', 'e', 'g'] := by decide

/-- Claim C4, amended: `query(s)` equals `query` of `s` ASCII-uppercased,
for every query; and `query(s)` equals `query("  " + s + "  ")` provided
the padded query's byte length stays within `max_query_len` and `s` has at
least one known word (pool mode) — in open mode the 4 extra bytes inflate
the `min_len` filter and can change the result, as the counterexample
shows. -/
theorem claim4_normalization (e : Engine) (cfg : QuickMatchConfig) (s : Str) :
    matchesWith e cfg (s.map asciiUpper) = matchesWith e cfg s ∧
      (byteLen ([' ', ' '] ++ s ++ [' ', ' ']) ≤ e.max_query_len →
        (∃ w ∈ queryWords e cfg s, knownWord e w = true) →
        matchesWith e cfg ([' ', ' '] ++ s ++ [' ', ' ']) = matchesWith e cfg s) := by
  constructor
  · exact matchesWith_congr e cfg (s.map asciiUpper) s (byteLen_map_asciiUpper s)
      (by simp) (normQuery_map_asciiUpper s)
  · intro hb hk
    have hn := normQuery_pad s
    have hpne : ([' ', ' '] ++ s ++ [' ', ' '] : Str) ≠ [] := by simp
    have hsne : s ≠ [] := by
      rintro rfl
      obtain ⟨w, hw, _⟩ := hk
      exact absurd hw (List.not_mem_nil w)
    have hb2 : byteLen s ≤ e.max_query_len := by
      rw [byteLen_pad] at hb
      omega
    have hk2 : ∃ w ∈ queryWords e cfg ([' ', ' '] ++ s ++ [' ', ' ']),
        knownWord e w = true := by
      unfold queryWords
      rw [hn]
      exact hk
    exact matchesWith_known_congr e cfg ([' ', ' '] ++ s ++ [' ', ' ']) s hpne hsne
      hn hb hb2 hk2

/-- Witness for C4 (amended): on the corpus `["apple"]`, uppercasing the
query `apple` or padding it with two spaces on each side returns the same
result. -/
theorem claim4_witness :
    matchesWith (new_with wItemsApple defaultConfig) defaultConfig
          ((['a', 'p', 'p', 'l', 'e'] : Str).map asciiUpper) =
        matchesWith (new_with wItemsApple defaultConfig) defaultConfig
          ['a', 'p', 'p', 'l', 'e'] ∧
      matchesWith (new_with wItemsApple defaultConfig) defaultConfig
          ([' ', ' '] ++ ['a', 'p', 'p', 'l', 'e'] ++ [' ', ' ']) =
        matchesWith (new_with wItemsApple defaultConfig) defaultConfig
          ['a', 'p', 'p', 'l', 'e'] :=
  ⟨(claim4_normalization (new_with wItemsApple defaultConfig) defaultConfig
      ['a', 'p', 'p', 'l', 'e']).1,
    (claim4_normalization (new_with wItemsApple defaultConfig) defaultConfig
      ['a', 'p', 'p', 'l', 'e']).2 (by decide) (by decide)⟩

/-! ### Claims C5, C6 and C7 -/

/-- Claim C5: for an engine over lowercase ASCII items and a query with at
least one known word, every returned item lies in the pool — the
intersection of the known words' posting sets; trigram scoring (an
additive refinement over pool seeds) never admits an item outside it — and
therefore contains every known query word as a whole token under the
build separators. -/
theorem claim5_pool_purity (e : Engine) (cfg : QuickMatchConfig) (q : Str)
    (_hitems : ∀ it ∈ e.items, ∀ c ∈ it, c.toNat < 128 ∧ ¬(65 ≤ c.toNat ∧ c.toNat ≤ 90))
    (hk : ∃ w ∈ queryWords e cfg q, knownWord e w = true) :
    ∀ r ∈ matchesWith e cfg q,
      (∃ p h, poolOf e cfg q = some p ∧ h ∈ p ∧ itemOf e h = r) ∧
        ∀ w ∈ queryWords e cfg q, knownWord e w = true →
          w ∈ tokensOf e.config.separators r := by
  intro r hr
  obtain ⟨p, hp⟩ := poolOf_isSome_of_known e cfg q hk
  have hmain : ∃ h, h ∈ p ∧ itemOf e h = r := by
    unfold matchesWith at hr
    by_cases hg1 : cfg.limit = 0 ∨ q = [] ∨ e.max_query_len < byteLen q
    · rw [if_pos hg1] at hr
      exact absurd hr (List.not_mem_nil r)
    rw [if_neg hg1] at hr
    by_cases hg2 : queryWords e cfg q = [] ∨ e.max_word_count < (queryWords e cfg q).length
    · rw [if_pos hg2] at hr
      exact absurd hr (List.not_mem_nil r)
    rw [if_neg hg2] at hr
    by_cases hun : unknowns e cfg q = []
    · rw [if_pos hun, hp] at hr
      rw [List.mem_map] at hr
      obtain ⟨h, hh, rfl⟩ := hr
      exact ⟨h, (List.perm_insertionSort (lenLe e) p).mem_iff.mp
        ((List.take_sublist _ _).subset hh), rfl⟩
    · rw [if_neg hun] at hr
      rw [List.mem_map] at hr
      obtain ⟨h, hh, rfl⟩ := hr
      have hsc : minScoreOf e cfg q ≤ (schedFinal e cfg q).score h := by
        unfold fuzzyHandles at hh
        have hmemf := (List.perm_insertionSort _ _).mem_iff.mp
          ((List.take_sublist _ _).subset hh)
        rw [List.mem_filter] at hmemf
        exact decide_eq_true_iff.mp hmemf.2
      have hmin : 1 ≤ minScoreOf e cfg q := Nat.le_max_right _ 1
      have hne : (schedFinal e cfg q).score h ≠ 0 := by omega
      have hseed : ∀ h2, (seedScore (some p)) h2 ≠ 0 → h2 ∈ p := by
        intro h2 hne2
        by_cases hin : decide (h2 ∈ p) = true
        · exact decide_eq_true_iff.mp hin
        · exfalso
          apply hne2
          unfold seedScore
          dsimp only
          rw [if_neg hin]
      have hfin : (schedFinal e cfg q).score h ≠ 0 → h ∈ p := by
        intro hne3
        unfold schedFinal schedFinalAux at hne3
        rw [hp] at hne3
        exact loopRounds_score_pool e p (byteLen q - 3) cfg.trigram_budget
          (unknowns e cfg q) cfg.trigram_budget 0
          { visited := [], trigram_count := 0, score := seedScore (some p),
            lookups := [] } hseed h hne3
      exact ⟨h, hfin hne, rfl⟩
  obtain ⟨h, hhp, rfl⟩ := hmain
  refine ⟨⟨p, h, hp, hhp, rfl⟩, ?_⟩
  intro w hw hkw
  have hpost := mem_pool_forall e cfg q p hp h hhp (wordPost e w)
    (wordPost_mem_knownSets e cfg q w hw hkw)
  rw [mem_wordPost] at hpost
  exact hpost.2

/-- Witness for C5: on the corpus `["apple"]`, the query `apple` returns
the item `apple`, which contains the known query word `apple` as a whole
token. -/
theorem claim5_witness :
    (['a', 'p', 'p', 'l', 'e'] : Str) ∈
      tokensOf (new_with wItemsApple defaultConfig).config.separators
        ['a', 'p', 'p', 'l', 'e'] :=
  (claim5_pool_purity (new_with wItemsApple defaultConfig) defaultConfig
      ['a', 'p', 'p', 'l', 'e'] (by decide) (by decide)
      ['a', 'p', 'p', 'l', 'e'] (by decide)).2
    ['a', 'p', 'p', 'l', 'e'] (by decide) (by decide)

/-- Claim C6: when the query passes the guards, all its words are known
(or the trigram budget is 0) and at least one word is known, the engine
takes the exact-match fast path: the result is the pool ranked by item
byte length ascending, truncated to `limit` — it is length-sorted, it has
`min limit |pool|` elements, every element is a pool item, and every pool
item left out is at least as long as every returned item. -/
theorem claim6_exact_path (e : Engine) (cfg : QuickMatchConfig) (q : Str)
    (hq : q ≠ []) (hb : byteLen q ≤ e.max_query_len)
    (hwc : (queryWords e cfg q).length ≤ e.max_word_count)
    (hk : ∃ w ∈ queryWords e cfg q, knownWord e w = true)
    (hall : (∀ w ∈ queryWords e cfg q, knownWord e w = true) ∨ cfg.trigram_budget = 0)
    (p : List Nat) (hp : poolOf e cfg q = some p) :
    List.Pairwise (fun a b : Str => byteLen a ≤ byteLen b) (matchesWith e cfg q) ∧
      (matchesWith e cfg q).length = min cfg.limit p.length ∧
      (∀ x ∈ matchesWith e cfg q, x ∈ p.map (itemOf e)) ∧
      (∀ y ∈ p.map (itemOf e), y ∉ matchesWith e cfg q →
        ∀ x ∈ matchesWith e cfg q, byteLen x ≤ byteLen y) := by
  by_cases hlim : cfg.limit = 0
  · have hm : matchesWith e cfg q = [] := by
      unfold matchesWith
      rw [if_pos (Or.inl hlim)]
    rw [hm, hlim]
    refine ⟨List.Pairwise.nil, by simp, ?_, ?_⟩
    · intro x hx
      exact absurd hx (List.not_mem_nil x)
    · intro y _ _ x hx
      exact absurd hx (List.not_mem_nil x)
  · have hg1 := guard1_false e cfg q hlim hq hb
    have hwne : queryWords e cfg q ≠ [] := by
      obtain ⟨w, hw, _⟩ := hk
      intro h
      rw [h] at hw
      exact List.not_mem_nil w hw
    have hg2 : ¬(queryWords e cfg q = [] ∨
        e.max_word_count < (queryWords e cfg q).length) := by
      intro h
      rcases h with h | h
      · exact hwne h
      · omega
    have hun : unknowns e cfg q = [] := by
      rcases hall with hall | hB
      · exact unknowns_nil_of_all_known e cfg q hall
      · exact unknowns_nil_of_budget0 e cfg q hB
    have hm := matchesWith_exact e cfg q p hg1 hg2 hun hp
    have hsorted : List.Pairwise (lenLe e) (List.insertionSort (lenLe e) p) :=
      List.sorted_insertionSort (lenLe e) p
    have hperm : (List.insertionSort (lenLe e) p).Perm p :=
      List.perm_insertionSort (lenLe e) p
    refine ⟨?_, ?_, ?_, ?_⟩
    · rw [hm, List.pairwise_map]
      exact List.Pairwise.sublist (List.take_sublist _ _) hsorted
    · rw [hm, List.length_map, List.length_take, hperm.length_eq]
    · intro x hx
      rw [hm] at hx
      rw [List.mem_map] at hx ⊢
      obtain ⟨h, hh, rfl⟩ := hx
      exact ⟨h, hperm.mem_iff.mp ((List.take_sublist _ _).subset hh), rfl⟩
    · intro y hy hyn x hx
      rw [hm] at hyn hx
      rw [List.mem_map] at hy hx
      obtain ⟨hy1, hy2, rfl⟩ := hy
      obtain ⟨hx1, hx2, rfl⟩ := hx
      have hyS : hy1 ∈ List.insertionSort (lenLe e) p := hperm.mem_iff.mpr hy2
      have hsplit : List.Pairwise (lenLe e)
          ((List.insertionSort (lenLe e) p).take cfg.limit ++
            (List.insertionSort (lenLe e) p).drop cfg.limit) := by
        rw [List.take_append_drop]
        exact hsorted
      have hyTD : hy1 ∈ (List.insertionSort (lenLe e) p).take cfg.limit ∨
          hy1 ∈ (List.insertionSort (lenLe e) p).drop cfg.limit := by
        rw [← List.mem_append, List.take_append_drop]
        exact hyS
      rcases hyTD with hyT | hyD
      · exact absurd (List.mem_map_of_mem _ hyT) hyn
      · exact (List.pairwise_append.mp hsplit).2.2 hx1 hx2 hy1 hyD

/-- Witness for C6: on the corpus `["ab", "abc"]`, the known-word query
`ab` has the pool `[0]` and the exact path returns exactly
`min limit 1 = 1` item. -/
theorem claim6_witness :
    (matchesWith (new_with [['a', 'b'], ['a', 'b', 'c']] defaultConfig)
        defaultConfig ['a', 'b']).length = min defaultConfig.limit ([0] : List Nat).length :=
  (claim6_exact_path (new_with [['a', 'b'], ['a', 'b', 'c']] defaultConfig)
      defaultConfig ['a', 'b'] (by decide) (by decide) (by decide) (by decide)
      (Or.inl (by decide)) [0] (by decide)).2.1

/-- Claim C7: on the fuzzy path the result is exactly the scored items
reaching the threshold `min_score = max(1, ceil(hit_count / 2))`, ranked
and truncated: every returned handle scores at least `min_score`, and any
handle scoring below it is excluded. -/
theorem claim7_threshold (e : Engine) (cfg : QuickMatchConfig) (q : Str)
    (hlim : cfg.limit ≠ 0) (hq : q ≠ []) (hb : byteLen q ≤ e.max_query_len)
    (hwne : queryWords e cfg q ≠ [])
    (hwc : (queryWords e cfg q).length ≤ e.max_word_count)
    (hun : unknowns e cfg q ≠ []) :
    matchesWith e cfg q = (fuzzyHandles e cfg q).map (itemOf e) ∧
      (∀ h ∈ fuzzyHandles e cfg q, minScoreOf e cfg q ≤ (schedFinal e cfg q).score h) ∧
      (∀ h : Nat, (schedFinal e cfg q).score h < minScoreOf e cfg q →
        h ∉ fuzzyHandles e cfg q) := by
  have hg1 := guard1_false e cfg q hlim hq hb
  have hg2 : ¬(queryWords e cfg q = [] ∨
      e.max_word_count < (queryWords e cfg q).length) := by
    intro h
    rcases h with h | h
    · exact hwne h
    · omega
  refine ⟨matchesWith_fuzzy e cfg q hg1 hg2 hun, ?_, ?_⟩
  · intro h hh
    unfold fuzzyHandles at hh
    have hmemf := (List.perm_insertionSort _ _).mem_iff.mp
      ((List.take_sublist _ _).subset hh)
    rw [List.mem_filter] at hmemf
    exact decide_eq_true_iff.mp hmemf.2
  · intro h hlt hmem
    unfold fuzzyHandles at hmem
    have hmemf := (List.perm_insertionSort _ _).mem_iff.mp
      ((List.take_sublist _ _).subset hmem)
    rw [List.mem_filter] at hmemf
    have := decide_eq_true_iff.mp hmemf.2
    omega

/-- Witness for C7: on the corpus `["abcd"]`, the fuzzy query `abce`
selects handle 0, whose score 1 reaches the threshold `min_score = 1`. -/
theorem claim7_witness :
    minScoreOf (new_with [['a', 'b', 'c', 'd']] defaultConfig) defaultConfig
        ['a', 'b', 'c', 'e'] ≤
      (schedFinal (new_with [['a', 'b', 'c', 'd']] defaultConfig) defaultConfig
        ['a', 'b', 'c', 'e']).score 0 :=
  (claim7_threshold (new_with [['a', 'b', 'c', 'd']] defaultConfig) defaultConfig
      ['a', 'b', 'c', 'e'] (by decide) (by decide) (by decide) (by decide)
      (by decide) (by decide)).2.1 0 (by decide)

end QuickMatch
